import Mathlib

/-!
# Verification of the etyper wrap/cursor engine and session loop

A shallow embedding of `typewriter.py` (the etyper e-paper typewriter).
Text is modelled as `List Char`; document paths as `String`.  The Python
standard-library call `textwrap.wrap(para, width, break_long_words=True,
break_on_hyphens=False)` that the wrap engine relies on is modelled
faithfully from CPython's `textwrap` module (`_munge_whitespace` with
`expand_tabs=True` (tabsize 8) and `replace_whitespace=True`, chunk
splitting on runs of whitespace, and `_wrap_chunks` with
`drop_whitespace=True` and the long-word handler).  Whitespace is the
6-character class `' \t\n\x0b\x0c\r'` used by `textwrap`.
-/

namespace Etyper

/-- The whitespace characters `textwrap` munges and tests for
(`string.whitespace` = `' \t\n\x0b\x0c\r'`). -/
def pyWS (c : Char) : Bool :=
  c = ' ' || c = '\t' || c = '\n' || c = '\x0b' || c = '\x0c' || c = '\r'

/-- `str.expandtabs(8)`: each tab is replaced by spaces up to the next
multiple of 8; the column counter resets after a newline or carriage
return. -/
def expandTabsGo (col : Nat) : List Char → List Char
  | [] => []
  | c :: cs =>
    if c = '\t' then
      let n := 8 - col % 8
      List.replicate n ' ' ++ expandTabsGo (col + n) cs
    else if c = '\n' ∨ c = '\r' then c :: expandTabsGo 0 cs
    else c :: expandTabsGo (col + 1) cs

/-- `TextWrapper._munge_whitespace`: expand tabs, then translate each of
the 6 whitespace characters to a plain space. -/
def mungeWS (s : List Char) : List Char :=
  (expandTabsGo 0 s).map (fun c => if pyWS c then ' ' else c)

/-- `TextWrapper._split` with `break_on_hyphens=False`: split on maximal
runs of whitespace, keeping the separators; no empty chunks. -/
def splitChunks : List Char → List (List Char)
  | [] => []
  | c :: cs =>
    match splitChunks cs with
    | [] => [[c]]
    | [] :: rest => [c] :: [] :: rest
    | (d :: ds) :: rest =>
      if pyWS c = pyWS d then (c :: d :: ds) :: rest
      else [c] :: (d :: ds) :: rest

/-- The inner greedy loop of `_wrap_chunks`: take chunks while they fit
in the remaining width.  Returns `(cur_line, remaining)`. -/
def greedyTake (width : Nat) (curLen : Nat) :
    List (List Char) → List (List Char) × List (List Char)
  | [] => ([], [])
  | c :: cs =>
    if curLen + c.length ≤ width then
      (c :: (greedyTake width (curLen + c.length) cs).1,
        (greedyTake width (curLen + c.length) cs).2)
    else ([], c :: cs)

/-- Total length of a chunk list. -/
def sumLen (l : List (List Char)) : Nat := (l.map List.length).foldr (· + ·) 0

/-- `TextWrapper._handle_long_word` with `break_long_words=True`:
split the head chunk at the remaining space.  Returns the piece put on
the current line and the replacement head chunk. -/
def handleLongWord (width curLen : Nat) (chunk : List Char) :
    List Char × List Char :=
  let spaceLeft := if width < 1 then 1 else width - curLen
  (chunk.take spaceLeft, chunk.drop spaceLeft)

/-- Is a chunk pure whitespace (`chunk.strip() == ''`)?  The empty chunk
counts as whitespace. -/
def allWS (c : List Char) : Bool := c.all pyWS

/-- One full iteration body plus recursion of `_wrap_chunks`'s
`while chunks:` loop, with `drop_whitespace=True` and no indents.
`emitted` holds iff at least one line has been produced (`if lines:`).
`fuel` bounds the recursion; `sumLen chunks + 1` always suffices when
`width ≥ 1`. -/
def wrapGo (width : Nat) : Nat → Bool → List (List Char) → List (List Char)
  | 0, _, _ => []
  | _ + 1, _, [] => []
  | fuel + 1, emitted, c0 :: cs0 =>
    -- drop a leading whitespace chunk (only once a line exists)
    let chunks := if emitted && allWS c0 then cs0 else c0 :: cs0
    let gr := greedyTake width 0 chunks
    -- long-word handling
    let cr2 : List (List Char) × List (List Char) :=
      match gr.2 with
      | [] => (gr.1, [])
      | c :: cs =>
        if width < c.length then
          (gr.1 ++ [(handleLongWord width (sumLen gr.1) c).1],
            (handleLongWord width (sumLen gr.1) c).2 :: cs)
        else (gr.1, c :: cs)
    -- drop one trailing whitespace chunk
    let curLine3 :=
      if cr2.1 ≠ [] ∧ allWS (cr2.1.getLastD []) then cr2.1.dropLast
      else cr2.1
    (if curLine3 ≠ [] then [curLine3.flatten] else []) ++ wrapGo width fuel
      (emitted || decide (curLine3 ≠ [])) cr2.2

/-- `textwrap.wrap(para, width, break_long_words=True,
break_on_hyphens=False)` on a single paragraph. -/
def textwrapWrap (width : Nat) (para : List Char) : List (List Char) :=
  let chunks := splitChunks (mungeWS para)
  wrapGo width (sumLen chunks + 1) false chunks

/-- The typewriter's `wrapped = textwrap.wrap(...); if not wrapped:
wrapped = [""]` fallback (`typewriter.py` lines 270-274 and 413-417). -/
def wrapParaF (width : Nat) (para : List Char) : List (List Char) :=
  match textwrapWrap width para with
  | [] => [[]]
  | w => w

/-- `text.split("\n")`: always returns at least one paragraph. -/
def splitNL : List Char → List (List Char)
  | [] => [[]]
  | c :: cs =>
    if c = '\n' then [] :: splitNL cs
    else
      match splitNL cs with
      | [] => [[c]]
      | p :: ps => (c :: p) :: ps

/-! ## `_wrap_with_cursor` (typewriter.py lines 242-316)

The Python code fills a dict `char_to_pos`; we record the assignments in
order as a list of `(offset, line, column)` triples, and look them up
with last-write-wins semantics, matching dict assignment. -/

/-- The inner loop over one paragraph's wrapped lines
(typewriter.py lines 277-287): per-character column entries, then the
conditional entry for a space consumed at the wrap point. -/
def paraWalk (para : List Char) (paraStart : Nat) :
    List (List Char) → Nat → Nat → List (Nat × Nat × Nat)
  | [], _, _ => []
  | w :: ws, lineIdx, pc =>
    let colEntries := (List.range w.length).map
      (fun col => (paraStart + pc + col, lineIdx, col))
    let pc1 := pc + w.length
    if pc1 < para.length ∧ para.getD pc1 ' ' = ' ' then
      colEntries ++ (paraStart + pc1, lineIdx, w.length) ::
        paraWalk para paraStart ws (lineIdx + 1) (pc1 + 1)
    else
      colEntries ++ paraWalk para paraStart ws (lineIdx + 1) pc1

/-- The outer loop of `_wrap_with_cursor` over paragraphs (lines
259-294), producing the visual lines and the `char_to_pos` assignments.
An empty paragraph yields one empty line and (when it is not the last)
an entry mapping its newline to that line's start; a non-empty paragraph
is wrapped, walked, and (when not last) its terminating newline is
mapped to the end of its last wrapped line. -/
def buildParas (cpl : Nat) :
    List (List Char) → Nat → Nat → List (List Char) × List (Nat × Nat × Nat)
  | [], _, _ => ([], [])
  | p :: ps, lineIdx, paraStart =>
    if p = [] then
      let e : List (Nat × Nat × Nat) :=
        if ps ≠ [] then [(paraStart, lineIdx, 0)] else []
      let (ls, es) := buildParas cpl ps (lineIdx + 1) (paraStart + 1)
      ([] :: ls, e ++ es)
    else
      let w := wrapParaF cpl p
      let es1 := paraWalk p paraStart w lineIdx 0
      let nlE : List (Nat × Nat × Nat) :=
        if ps ≠ [] then
          [(paraStart + p.length, lineIdx + w.length - 1, (w.getLastD []).length)]
        else []
      let (ls, es) := buildParas cpl ps (lineIdx + w.length) (paraStart + p.length + 1)
      (w ++ ls, es1 ++ nlE ++ es)

/-- The visual lines of the whole document (the `lines` list built by
`_wrap_with_cursor`, including the `if not lines: lines = [""]`
fallback). -/
def wrapLines (cpl : Nat) (text : List Char) : List (List Char) :=
  match (buildParas cpl (splitNL text) 0 0).1 with
  | [] => [[]]
  | ls => ls

/-- All `char_to_pos` assignments of `_wrap_with_cursor`, in program
order. -/
def entriesOf (cpl : Nat) (text : List Char) : List (Nat × Nat × Nat) :=
  (buildParas cpl (splitNL text) 0 0).2

/-- Python dict semantics: the last assignment to a key wins. -/
def lookupLast (l : List (Nat × Nat × Nat)) (k : Nat) : Option (Nat × Nat) :=
  l.foldl (fun acc e => if e.1 = k then some e.2 else acc) none

/-- The cursor placement of `_wrap_with_cursor` (lines 300-314):
cursor at or past the end of text maps to the end of the last line;
otherwise the `char_to_pos` entry is used, falling back to the end of
the last line. -/
def forwardPos (cpl : Nat) (text : List Char) (cursor : Nat) : Nat × Nat :=
  let lines := wrapLines cpl text
  let atEnd := (lines.length - 1, (lines.getLastD []).length)
  if text.length ≤ cursor then atEnd
  else
    match lookupLast (entriesOf cpl text) cursor with
    | some lc => lc
    | none => atEnd

/-! ## `_pos_from_line_col` (typewriter.py lines 396-433) -/

/-- The inner loop over one paragraph's wrapped lines (lines 420-428):
if the target line is reached, return `text_pos + para_char +
min(target_col, len(w_line))`; otherwise advance `para_char`, skipping
the space consumed by wrapping. -/
def posWalkPara (para : List Char) (textPos tL tC : Nat) :
    List (List Char) → Nat → Nat → Option Nat
  | [], _, _ => none
  | w :: ws, lineIdx, pc =>
    if lineIdx = tL then some (textPos + pc + min tC w.length)
    else
      let pc1 := pc + w.length
      let pc2 :=
        if pc1 < para.length ∧ para.getD pc1 ' ' = ' ' then pc1 + 1 else pc1
      posWalkPara para textPos tL tC ws (lineIdx + 1) pc2

/-- The outer loop of `_pos_from_line_col` over paragraphs (lines
405-430).  `none` means the walk fell through all paragraphs. -/
def posParas (cpl tL tC : Nat) :
    List (List Char) → Nat → Nat → Option Nat
  | [], _, _ => none
  | p :: ps, lineIdx, textPos =>
    if p = [] then
      if lineIdx = tL then some (textPos + min tC 0)
      else posParas cpl tL tC ps (lineIdx + 1) (textPos + 1)
    else
      let w := wrapParaF cpl p
      match posWalkPara p textPos tL tC w lineIdx 0 with
      | some r => some r
      | none => posParas cpl tL tC ps (lineIdx + w.length) (textPos + p.length + 1)

/-- `_pos_from_line_col`: falls back to `len(text)` past the end. -/
def pos_from_line_col (cpl : Nat) (text : List Char) (tL tC : Nat) : Nat :=
  (posParas cpl tL tC (splitNL text) 0 0).getD text.length

/-! ## The round-trip re-join (claim C1)

Re-join the wrapped lines of one paragraph, reinserting each space the
wrap engine consumed; a space is consumed after a wrapped line exactly
when `_wrap_with_cursor`'s test `para_char < len(para) and
para[para_char] == " "` holds (lines 283-285). -/

/-- Walk the wrapped lines of a paragraph, concatenating them and
reinserting each wrap-consumed space. -/
def rejoinGo (para : List Char) : List (List Char) → Nat → List Char
  | [], _ => []
  | l :: ls, pos =>
    let pos2 := pos + l.length
    if pos2 < para.length ∧ para.getD pos2 ' ' = ' ' then
      l ++ ' ' :: rejoinGo para ls (pos2 + 1)
    else
      l ++ rejoinGo para ls pos2

/-- `"\n".join`: glue paragraphs back together with newlines. -/
def joinNL : List (List Char) → List Char
  | [] => []
  | [p] => p
  | p :: ps => p ++ '\n' :: joinNL ps

/-- Re-join a whole document: paragraphs re-joined line by line, with
the newlines reinserted at paragraph boundaries. -/
def rejoinText (cpl : Nat) (text : List Char) : List Char :=
  joinNL ((splitNL text).map (fun p => rejoinGo p (wrapParaF cpl p) 0))

/-- The intended forward mapping of offsets inside one paragraph to
`(line, column)` along the wrapped lines, following the same
space-consumption schedule as the walks above: an offset inside a line
maps to its column, the offset of a consumed space maps to the end of
its line, anything else moves to the next line. -/
def idealMap (para : List Char) : List (List Char) → Nat → Nat → Nat →
    Option (Nat × Nat)
  | [], _, _, _ => none
  | l :: ls, lb, pc, j =>
    if j < pc + l.length then some (lb, j - pc)
    else
      let pc1 := pc + l.length
      if pc1 < para.length ∧ para.getD pc1 ' ' = ' ' then
        if j = pc1 then some (lb, l.length)
        else idealMap para ls (lb + 1) (pc1 + 1) j
      else idealMap para ls (lb + 1) pc1 j

/-! ## Application state (class `EtyperApp`)

The fields of `EtyperApp` that the core state machine reads or writes.
`text` is a `List Char`; times are integers (the exact clock values
never matter for the claims below); the e-paper device, font and
keyboard are external and appear only through the commands a step
emits. -/

structure AppState where
  text : List Char
  cursor : Nat
  docPath : Option String
  dirty : Bool
  lastSaveTime : Int
  shiftHeld : Bool
  ctrlHeld : Bool
  charsPerLine : Nat
  linesPerPage : Nat
  needsDisplayUpdate : Bool
  scrollOffset : Int
  deriving Repr, DecidableEq

/-- The effects a step can emit towards the external collaborators:
file writes, the "last doc" pointer, and the e-paper device calls
(`epd.display`, `epd.display_image_partial`, `epd.full_refresh`,
`epd.init`, `epd.init_partial`, `epd.sleep`). -/
inductive Cmd where
  | writeFile (path : String) (content : List Char)
  | setLastDoc (path : String)
  | pushFull
  | pushPart
  | pushDisplay
  | epdInit
  | epdInitPart
  | epdSleep
  deriving Repr, DecidableEq

/-- Is a command a push of a frame to the display?  (`pushDisplay` is
the full-image `epd.display`, `pushFull` the explicit
`epd.full_refresh`, `pushPart` the partial `epd.display_image_partial`.) -/
def Cmd.isDisplayPush : Cmd → Bool
  | .pushFull => true
  | .pushPart => true
  | .pushDisplay => true
  | _ => false

/-- The external persistence capability: the sorted list of persisted
document paths (`_list_docs()`) and file contents
(`read(path) → bytes-or-absent`). -/
structure Fs where
  docs : List String
  read : String → Option (List Char)
  lastDoc : Option String

/-- The evdev keycodes used by `typewriter.py` (Linux
`input-event-codes.h`). -/
def KEY_ENTER : Nat := 28
def KEY_BACKSPACE : Nat := 14
def KEY_DELETE : Nat := 111
def KEY_LEFT : Nat := 105
def KEY_RIGHT : Nat := 106
def KEY_UP : Nat := 103
def KEY_DOWN : Nat := 108
def KEY_HOME : Nat := 102
def KEY_END : Nat := 107
def KEY_LEFTSHIFT : Nat := 42
def KEY_RIGHTSHIFT : Nat := 54
def KEY_LEFTCTRL : Nat := 29
def KEY_RIGHTCTRL : Nat := 97
def KEY_Q : Nat := 16
def KEY_S : Nat := 31
def KEY_N : Nat := 49
def KEY_R : Nat := 19

/-- The `KEYMAP` table: keycode to `(normal, shifted)` character
strings (typewriter.py lines 70-91). -/
def keymap (k : Nat) : Option (List Char × List Char) :=
  -- letters (evdev codes for KEY_A .. KEY_Z)
  if k = 30 then some (['a'], ['A']) else if k = 48 then some (['b'], ['B'])
  else if k = 46 then some (['c'], ['C']) else if k = 32 then some (['d'], ['D'])
  else if k = 18 then some (['e'], ['E']) else if k = 33 then some (['f'], ['F'])
  else if k = 34 then some (['g'], ['G']) else if k = 35 then some (['h'], ['H'])
  else if k = 23 then some (['i'], ['I']) else if k = 36 then some (['j'], ['J'])
  else if k = 37 then some (['k'], ['K']) else if k = 38 then some (['l'], ['L'])
  else if k = 50 then some (['m'], ['M']) else if k = 49 then some (['n'], ['N'])
  else if k = 24 then some (['o'], ['O']) else if k = 25 then some (['p'], ['P'])
  else if k = 16 then some (['q'], ['Q']) else if k = 19 then some (['r'], ['R'])
  else if k = 31 then some (['s'], ['S']) else if k = 20 then some (['t'], ['T'])
  else if k = 22 then some (['u'], ['U']) else if k = 47 then some (['v'], ['V'])
  else if k = 17 then some (['w'], ['W']) else if k = 45 then some (['x'], ['X'])
  else if k = 21 then some (['y'], ['Y']) else if k = 44 then some (['z'], ['Z'])
  -- digit row
  else if k = 2 then some (['1'], ['!']) else if k = 3 then some (['2'], ['@'])
  else if k = 4 then some (['3'], ['#']) else if k = 5 then some (['4'], ['$'])
  else if k = 6 then some (['5'], ['%']) else if k = 7 then some (['6'], ['^'])
  else if k = 8 then some (['7'], ['&']) else if k = 9 then some (['8'], ['*'])
  else if k = 10 then some (['9'], ['(']) else if k = 11 then some (['0'], [')'])
  -- punctuation
  else if k = 12 then some (['-'], ['_']) else if k = 13 then some (['='], ['+'])
  else if k = 26 then some (['['], ['\x7b']) else if k = 27 then some ([']'], ['\x7d'])
  else if k = 39 then some ([';'], [':']) else if k = 40 then some (['\''], ['"'])
  else if k = 41 then some (['`'], ['~']) else if k = 43 then some (['\\'], ['|'])
  else if k = 51 then some ([','], ['<']) else if k = 52 then some (['.'], ['>'])
  else if k = 53 then some (['/'], ['?'])
  -- space and tab (tab inserts four spaces)
  else if k = 57 then some ([' '], [' '])
  else if k = 15 then some ([' ', ' ', ' ', ' '], [' ', ' ', ' ', ' '])
  else none

/-! ## Viewport and render (typewriter.py lines 320-372) -/

/-- The auto-scroll adjustment in `render` (lines 330-333): scroll up to
reveal the cursor, or down keeping it on the last visible row. -/
def adjustScroll (cursorLine scrollOffset visible : Int) : Int :=
  if cursorLine < scrollOffset then cursorLine
  else if scrollOffset + visible ≤ cursorLine then cursorLine - visible + 1
  else scrollOffset

/-- The cursor line of the current wrap (`_wrap_with_cursor`'s second
result). -/
def cursorLineOf (s : AppState) : Nat :=
  (forwardPos s.charsPerLine s.text s.cursor).1

/-- The state change `render` performs (the only mutation is the
auto-scroll of `scroll_offset`; pixel output goes to the external
canvas). -/
def renderState (s : AppState) : AppState :=
  { s with scrollOffset :=
      adjustScroll (cursorLineOf s) s.scrollOffset s.linesPerPage }

/-! ## Document management (typewriter.py lines 172-238) -/

/-- `save_document` (lines 193-198): writes the text when a path is
set, clears `dirty`, records the save time; otherwise does nothing. -/
def save_document (s : AppState) (now : Int) : AppState × List Cmd :=
  match s.docPath with
  | some p =>
    ({ s with dirty := false, lastSaveTime := now }, [.writeFile p s.text])
  | none => (s, [])

/-- The fresh timestamp-derived path of `_new_doc_path` (line 168-170);
the exact name never matters, only that it is produced from the clock. -/
def newDocPath (now : Int) : String := "doc_" ++ toString now ++ ".txt"

/-- `new_document` (lines 200-208). -/
def new_document (s : AppState) (now : Int) : AppState × List Cmd :=
  let (s1, c1) := save_document s now
  let p := newDocPath now
  ({ s1 with docPath := some p, text := [], cursor := 0, scrollOffset := 0,
             dirty := false, needsDisplayUpdate := true },
   c1 ++ [.setLastDoc p])

/-- `_get_last_doc_path` (lines 157-162): the recorded last-opened
path, provided it still exists. -/
def get_last_doc_path (fs : Fs) : Option String :=
  match fs.lastDoc with
  | some p => if (fs.read p).isSome then some p else none
  | none => none

/-- `load_document(path)` (lines 172-191): resolve to the explicit
path if it exists, else the last-opened path, else a fresh
timestamp-named document; load the text (empty if new), put the cursor
at the end, record the path as last opened, clear `dirty`. -/
def load_document (fs : Fs) (s : AppState) (path : Option String)
    (now : Int) : AppState × List Cmd :=
  let dp :=
    match path with
    | some p => if (fs.read p).isSome then some p else get_last_doc_path fs
    | none => get_last_doc_path fs
  match dp with
  | some p =>
    match fs.read p with
    | some t =>
      ({ s with docPath := some p, text := t, cursor := t.length,
                dirty := false },
       [.setLastDoc p])
    | none =>
      let q := newDocPath now
      ({ s with docPath := some q, text := [], cursor := 0, dirty := false },
       [.setLastDoc q])
  | none =>
    let q := newDocPath now
    ({ s with docPath := some q, text := [], cursor := 0, dirty := false },
     [.setLastDoc q])

/-- `list.index` with the `except ValueError` fallback to the last
index (lines 226-229). -/
def docIndex (docs : List String) (p : Option String) : Nat :=
  match p with
  | some path =>
    match docs.indexOf? path with
    | some i => i
    | none => docs.length - 1
  | none => docs.length - 1

/-- `_switch_document(direction)` (lines 219-238): save, locate the
current document in the sorted list, move by `direction`; out of bounds
is a no-op. -/
def switch_document (fs : Fs) (s : AppState) (direction : Int) (now : Int) :
    AppState × List Cmd :=
  let (s1, c1) := save_document s now
  if fs.docs = [] then (s1, c1)
  else
    let idx : Int := docIndex fs.docs s.docPath
    let newIdx := idx + direction
    if newIdx < 0 ∨ (fs.docs.length : Int) ≤ newIdx then (s1, c1)
    else
      let (s2, c2) := load_document fs s1 (some (fs.docs.getD newIdx.toNat "")) now
      ({ s2 with needsDisplayUpdate := true }, c1 ++ c2)

/-! ## Cursor movement helpers (typewriter.py lines 376-433) -/

/-- `_cursor_up` (lines 376-384). -/
def cursor_up (s : AppState) : AppState :=
  let lines := wrapLines s.charsPerLine s.text
  let curLine := (forwardPos s.charsPerLine s.text s.cursor).1
  let curCol := (forwardPos s.charsPerLine s.text s.cursor).2
  if curLine = 0 then s
  else
    let targetLine := curLine - 1
    let targetCol := min curCol (lines.getD targetLine []).length
    { s with cursor := pos_from_line_col s.charsPerLine s.text targetLine targetCol }

/-- `_cursor_down` (lines 386-394). -/
def cursor_down (s : AppState) : AppState :=
  let lines := wrapLines s.charsPerLine s.text
  let curLine := (forwardPos s.charsPerLine s.text s.cursor).1
  let curCol := (forwardPos s.charsPerLine s.text s.cursor).2
  if lines.length - 1 ≤ curLine then s
  else
    let targetLine := curLine + 1
    let targetCol := min curCol (lines.getD targetLine []).length
    { s with cursor := pos_from_line_col s.charsPerLine s.text targetLine targetCol }

/-! ## Sleep mode (typewriter.py lines 550-581)

`_sleep_mode` shows the goodbye frame, sleeps the panel, blocks until
Ctrl+Q, then re-initialises and re-renders.  Its state effect is the
scroll adjustment of the wake-up `render()` and clearing the redraw
flag; everything else is emitted commands. -/
def sleep_mode (s : AppState) : AppState × List Cmd :=
  let s1 := renderState s
  ({ s1 with needsDisplayUpdate := false },
   [.epdInit, .pushDisplay, .epdSleep, .epdInit, .pushDisplay, .epdInitPart])

/-! ## `_handle_key` (typewriter.py lines 437-546) -/

/-- Process one keyboard event `(keycode, value)`; `value = 0` is a
release, `1` a press, `2` a repeat. -/
def handle_key (fs : Fs) (s : AppState) (keycode value : Nat) (now : Int) :
    AppState × List Cmd :=
  if keycode = KEY_LEFTSHIFT ∨ keycode = KEY_RIGHTSHIFT then
    ({ s with shiftHeld := value ≠ 0 }, [])
  else if keycode = KEY_LEFTCTRL ∨ keycode = KEY_RIGHTCTRL then
    ({ s with ctrlHeld := value ≠ 0 }, [])
  else if value = 0 then (s, [])
  else if s.ctrlHeld ∧ keycode = KEY_Q then
    let (s1, c1) := save_document s now
    let (s2, c2) := sleep_mode s1
    (s2, c1 ++ c2)
  else if s.ctrlHeld ∧ keycode = KEY_S then
    let (s1, c1) := save_document s now
    ({ s1 with needsDisplayUpdate := true }, c1)
  else if s.ctrlHeld ∧ keycode = KEY_N then
    new_document s now
  else if s.ctrlHeld ∧ keycode = KEY_R then
    (({ renderState s with needsDisplayUpdate := false }), [.pushFull])
  else if s.ctrlHeld ∧ keycode = KEY_LEFT then
    switch_document fs s (-1) now
  else if s.ctrlHeld ∧ keycode = KEY_RIGHT then
    switch_document fs s 1 now
  else if keycode = KEY_LEFT then
    (if 0 < s.cursor then
      { s with cursor := s.cursor - 1, needsDisplayUpdate := true }
     else s, [])
  else if keycode = KEY_RIGHT then
    (if s.cursor < s.text.length then
      { s with cursor := s.cursor + 1, needsDisplayUpdate := true }
     else s, [])
  else if keycode = KEY_UP then
    ({ cursor_up s with needsDisplayUpdate := true }, [])
  else if keycode = KEY_DOWN then
    ({ cursor_down s with needsDisplayUpdate := true }, [])
  else if keycode = KEY_HOME then
    let curLine := cursorLineOf s
    ({ s with cursor := pos_from_line_col s.charsPerLine s.text curLine 0,
              needsDisplayUpdate := true }, [])
  else if keycode = KEY_END then
    let lines := wrapLines s.charsPerLine s.text
    let curLine := cursorLineOf s
    ({ s with
        cursor := pos_from_line_col s.charsPerLine s.text curLine
          (lines.getD curLine []).length,
        needsDisplayUpdate := true }, [])
  else if keycode = KEY_ENTER then
    ({ s with text := s.text.take s.cursor ++ '\n' :: s.text.drop s.cursor,
              cursor := s.cursor + 1, dirty := true,
              needsDisplayUpdate := true }, [])
  else if keycode = KEY_BACKSPACE then
    (if 0 < s.cursor then
      { s with text := s.text.take (s.cursor - 1) ++ s.text.drop s.cursor,
               cursor := s.cursor - 1, dirty := true,
               needsDisplayUpdate := true }
     else s, [])
  else if keycode = KEY_DELETE then
    (if s.cursor < s.text.length then
      { s with text := s.text.take s.cursor ++ s.text.drop (s.cursor + 1),
               dirty := true, needsDisplayUpdate := true }
     else s, [])
  else
    match keymap keycode with
    | some (normal, shifted) =>
      let ch := if s.shiftHeld then shifted else normal
      ({ s with text := s.text.take s.cursor ++ ch ++ s.text.drop s.cursor,
                cursor := s.cursor + ch.length, dirty := true,
                needsDisplayUpdate := true }, [])
    | none => (s, [])

/-! ## Session loop (typewriter.py lines 647-680) -/

/-- `_check_autosave` (lines 677-680): save if dirty and the autosave
interval (10 s) has elapsed since the last save. -/
def check_autosave (s : AppState) (now : Int) : AppState × List Cmd :=
  if s.dirty ∧ 10 ≤ now - s.lastSaveTime then save_document s now
  else (s, [])

/-- One iteration of `_main_loop` with the keyboard connected: drain
and dispatch the pending events, push a partial frame if a redraw is
pending, then check autosave.  `events` is the batch the `select` poll
returned (empty on timeout). -/
def main_loop_iter (fs : Fs) (s : AppState) (events : List (Nat × Nat))
    (now : Int) : AppState × List Cmd :=
  let r1 := events.foldl
    (fun (acc : AppState × List Cmd) ev =>
      ((handle_key fs acc.1 ev.1 ev.2 now).1,
        acc.2 ++ (handle_key fs acc.1 ev.1 ev.2 now).2))
    (s, [])
  let r2 : AppState × List Cmd :=
    if r1.1.needsDisplayUpdate then
      ({ renderState r1.1 with needsDisplayUpdate := false }, [Cmd.pushPart])
    else (r1.1, [])
  let r3 := check_autosave r2.1 now
  (r3.1, r1.2 ++ r2.2 ++ r3.2)

/-! ## Wrap-clean texts

The amended round-trip / mapping-consistency statements hold on texts
whose paragraphs are words of printable ASCII separated by single
spaces.  (The counterexamples below show the unrestricted claims fail:
`textwrap` silently drops runs of whitespace that fall at wrap points,
and the engine's bookkeeping accounts for at most one space per wrap.) -/

/-- Printable ASCII, excluding the space and all whitespace. -/
def isPrintableAscii (c : Char) : Bool := 33 ≤ c.toNat && c.toNat ≤ 126

/-- A character a clean paragraph may contain. -/
def goodChar (c : Char) : Bool := c = ' ' || isPrintableAscii c

/-- No two adjacent spaces. -/
def noDoubleSpace : List Char → Bool
  | [] => true
  | [_] => true
  | c :: d :: cs => !(c = ' ' && d = ' ') && noDoubleSpace (d :: cs)

/-- Clean paragraph for the round-trip claim: printable ASCII and
single spaces, not beginning with a space (a single trailing space is
allowed). -/
def cleanParaC1 (p : List Char) : Bool :=
  p.all goodChar && noDoubleSpace p && decide (p.head? ≠ some ' ')

/-- Clean paragraph for the mapping-consistency claim: additionally not
ending with a space. -/
def cleanParaC2 (p : List Char) : Bool :=
  cleanParaC1 p && decide (p.getLast? ≠ some ' ')

/-- Clean text: every paragraph clean. -/
def cleanTextC1 (t : List Char) : Bool := (splitNL t).all cleanParaC1

/-- Clean text for mapping consistency. -/
def cleanTextC2 (t : List Char) : Bool := (splitNL t).all cleanParaC2

/-- Invariant on the chunk list during `_wrap_chunks`: chunks are
non-empty; whitespace chunks are single spaces; no two adjacent space
chunks; the flag tells whether a leading space chunk is allowed. -/
inductive GoodChunks : Bool → List (List Char) → Prop
  | nil : ∀ {b}, GoodChunks b []
  | word : ∀ {b w rest}, w ≠ [] → (∀ c ∈ w, pyWS c = false) →
      GoodChunks true rest → GoodChunks b (w :: rest)
  | space : ∀ {rest}, GoodChunks false rest → GoodChunks true ([' '] :: rest)

/-- An empty filesystem (no persisted documents). -/
def fsEmpty : Fs := ⟨[], fun _ => none, none⟩

/-- A default in-memory document state over the given text and cursor,
with the startup text metrics (`chars_per_line = 30`,
`lines_per_page = 20` as computed for the default font). -/
def mkState (text : List Char) (cursor : Nat) : AppState :=
  ⟨text, cursor, none, false, 0, false, false, 30, 20, false, 0⟩

/-- A filesystem holding a single persisted document. -/
def fsOneDoc : Fs := ⟨["doc_a.txt"], fun _ => some ['x'], none⟩

/-- A dirty state currently on that single (hence last and first)
document. -/
def sOnLast : AppState :=
  ⟨['y'], 1, some "doc_a.txt", true, 0, false, false, 30, 20, false, 0⟩

/-! # Theorems -/

/-- Claim C5: for every `cursor_line ≥ 0`, `scroll_offset ≥ 0` and
`visible_count ≥ 1`, the viewport adjustment performed in `render`
yields `scroll_offset ≤ cursor_line < scroll_offset + visible_count`
and never a negative offset. -/
theorem viewport_adjust_invariant (cl so v : Int)
    (h0 : 0 ≤ cl) (h1 : 0 ≤ so) (h2 : 1 ≤ v) :
    adjustScroll cl so v ≤ cl ∧ cl < adjustScroll cl so v + v ∧
      0 ≤ adjustScroll cl so v := by
  unfold adjustScroll
  split_ifs <;> omega

/-- Witness for C5 at `cursor_line = 7`, `scroll_offset = 2`,
`visible_count = 3` (a scroll-down case). -/
theorem viewport_adjust_invariant_witness :
    (0 : Int) ≤ 7 ∧ (0 : Int) ≤ 2 ∧ (1 : Int) ≤ 3 ∧
      (adjustScroll 7 2 3 ≤ 7 ∧ 7 < adjustScroll 7 2 3 + 3 ∧
        0 ≤ adjustScroll 7 2 3) :=
  ⟨by norm_num, by norm_num, by norm_num,
    viewport_adjust_invariant 7 2 3 (by norm_num) (by norm_num) (by norm_num)⟩

/-- Claim C9: `save_document` leaves `text`, `cursor`, `doc_path` and
`scroll_offset` unchanged; with a path set its only state effects are
clearing `dirty` and recording the save time, and with no path set it
changes nothing at all. -/
theorem save_document_frame (s : AppState) (now : Int) :
    (save_document s now).1.text = s.text ∧
    (save_document s now).1.cursor = s.cursor ∧
    (save_document s now).1.docPath = s.docPath ∧
    (save_document s now).1.scrollOffset = s.scrollOffset ∧
    (save_document s now).1.needsDisplayUpdate = s.needsDisplayUpdate ∧
    (s.docPath ≠ none →
      (save_document s now).1 =
        { s with dirty := false, lastSaveTime := now }) ∧
    (s.docPath = none → save_document s now = (s, [])) := by
  cases hp : s.docPath <;> simp [save_document, hp]

/-- Witness for C9: on a concrete pathless state, `save_document`
changes nothing. -/
theorem save_document_frame_witness :
    save_document (mkState ['h', 'i'] 1) 5 = (mkState ['h', 'i'] 1, []) :=
  (save_document_frame (mkState ['h', 'i'] 1) 5).2.2.2.2.2.2 rfl

/-- Claim C6: a Backspace press at offset 0 is a complete no-op, and at
any positive offset it removes exactly the character before the cursor,
moves the cursor back one, and sets `dirty`. -/
theorem backspace_spec (fs : Fs) (s : AppState) (now : Int) :
    (s.cursor = 0 → (handle_key fs s KEY_BACKSPACE 1 now).1 = s) ∧
    (0 < s.cursor →
      (handle_key fs s KEY_BACKSPACE 1 now).1.text =
        s.text.eraseIdx (s.cursor - 1) ∧
      (handle_key fs s KEY_BACKSPACE 1 now).1.cursor = s.cursor - 1 ∧
      (handle_key fs s KEY_BACKSPACE 1 now).1.dirty = true) := by
  have hred : handle_key fs s KEY_BACKSPACE 1 now =
      (if 0 < s.cursor then
        { s with text := s.text.take (s.cursor - 1) ++ s.text.drop s.cursor,
                 cursor := s.cursor - 1, dirty := true,
                 needsDisplayUpdate := true }
       else s, []) := by
    simp [handle_key, KEY_BACKSPACE, KEY_LEFTSHIFT, KEY_RIGHTSHIFT,
      KEY_LEFTCTRL, KEY_RIGHTCTRL, KEY_Q, KEY_S, KEY_N, KEY_R, KEY_LEFT,
      KEY_RIGHT, KEY_UP, KEY_DOWN, KEY_HOME, KEY_END, KEY_ENTER]
  constructor
  · intro h0
    simp [hred, h0]
  · intro hpos
    have h1 : s.cursor - 1 + 1 = s.cursor := Nat.succ_pred_eq_of_pos hpos
    have h2 : s.text.eraseIdx (s.cursor - 1) =
        s.text.take (s.cursor - 1) ++ s.text.drop s.cursor := by
      rw [List.eraseIdx_eq_take_drop_succ, h1]
    simp [hred, hpos, h2]

/-- Witness for C6: backspace at cursor 2 in `"hi"` deletes the `'i'`. -/
theorem backspace_spec_witness :
    (handle_key fsEmpty (mkState ['h', 'i'] 2) KEY_BACKSPACE 1 0).1.text =
        (['h', 'i'].eraseIdx 1) ∧
      (handle_key fsEmpty (mkState ['h', 'i'] 2) KEY_BACKSPACE 1 0).1.cursor = 1 ∧
      (handle_key fsEmpty (mkState ['h', 'i'] 2) KEY_BACKSPACE 1 0).1.dirty = true :=
  (backspace_spec fsEmpty (mkState ['h', 'i'] 2) 0).2 (by decide)

/-- `indexOf?` finds the last element of a duplicate-free list at the
last index. -/
theorem indexOf?_getLast_of_nodup {l : List String} {x : String}
    (hnd : l.Nodup) (hl : l.getLast? = some x) :
    l.indexOf? x = some (l.length - 1) := by
  induction l with
  | nil => simp at hl
  | cons a t ih =>
    cases t with
    | nil =>
      simp at hl
      simp [List.indexOf?_cons, hl]
    | cons b t' =>
      have hl' : (b :: t').getLast? = some x := by
        simpa using hl
      have hmem : x ∈ b :: t' := List.mem_of_getLast?_eq_some hl'
      have hne : ¬ (a == x) := by
        simp only [beq_iff_eq]
        intro h
        exact (List.nodup_cons.mp hnd).1 (h ▸ hmem)
      rw [List.indexOf?_cons, if_neg (by simpa using hne),
        ih (List.nodup_cons.mp hnd).2 hl']
      simp only [Option.map_some', Option.some.injEq, List.length_cons]
      omega

/-- `indexOf?` finds the head of a list at index 0. -/
theorem indexOf?_head {l : List String} {x : String}
    (hl : l.head? = some x) : l.indexOf? x = some 0 := by
  cases l with
  | nil => simp at hl
  | cons a t =>
    simp at hl
    simp [List.indexOf?_cons, hl]

/-- At an out-of-bounds target index, `_switch_document` only performs
the save. -/
theorem switch_document_boundary (fs : Fs) (s : AppState) (dir now : Int)
    (hne : fs.docs ≠ [])
    (hcond : (docIndex fs.docs s.docPath : Int) + dir < 0 ∨
             (fs.docs.length : Int) ≤ (docIndex fs.docs s.docPath : Int) + dir) :
    switch_document fs s dir now = save_document s now := by
  unfold switch_document
  rcases h : save_document s now with ⟨s1, c1⟩
  dsimp only
  rw [if_neg hne, if_pos hcond]

/-- Claim C7 (amended): a `next` switch at the last persisted document
(or a `prev` switch at the first) leaves `text`, `cursor`, `doc_path`
and the viewport unchanged — the only state effect is the saving of the
current document, which clears the dirty flag. -/
theorem switch_at_boundary_noop (fs : Fs) (s : AppState) (dir now : Int)
    (hnd : fs.docs.Nodup)
    (hb : (dir = 1 ∧ ∃ p, fs.docs.getLast? = some p ∧ s.docPath = some p) ∨
          (dir = -1 ∧ ∃ p, fs.docs.head? = some p ∧ s.docPath = some p)) :
    (switch_document fs s dir now).1.text = s.text ∧
    (switch_document fs s dir now).1.cursor = s.cursor ∧
    (switch_document fs s dir now).1.docPath = s.docPath ∧
    (switch_document fs s dir now).1.scrollOffset = s.scrollOffset ∧
    (switch_document fs s dir now).1.dirty = false := by
  rcases hb with ⟨hdir, p, hlast, hpath⟩ | ⟨hdir, p, hhead, hpath⟩
  · have hne : fs.docs ≠ [] := by
      intro h
      rw [h] at hlast
      simp at hlast
    have hlen : 1 ≤ fs.docs.length := List.length_pos.mpr hne
    have hidx : docIndex fs.docs s.docPath = fs.docs.length - 1 := by
      rw [hpath]
      simp only [docIndex, indexOf?_getLast_of_nodup hnd hlast]
    have hcond : (docIndex fs.docs s.docPath : Int) + dir < 0 ∨
        (fs.docs.length : Int) ≤ (docIndex fs.docs s.docPath : Int) + dir := by
      right
      rw [hidx, hdir]
      omega
    rw [switch_document_boundary fs s dir now hne hcond]
    simp [save_document, hpath]
  · have hne : fs.docs ≠ [] := by
      intro h
      rw [h] at hhead
      simp at hhead
    have hidx : docIndex fs.docs s.docPath = 0 := by
      rw [hpath]
      simp only [docIndex, indexOf?_head hhead]
    have hcond : (docIndex fs.docs s.docPath : Int) + dir < 0 ∨
        (fs.docs.length : Int) ≤ (docIndex fs.docs s.docPath : Int) + dir := by
      left
      rw [hidx, hdir]
      norm_num
    rw [switch_document_boundary fs s dir now hne hcond]
    simp [save_document, hpath]

/-- Witness for C7 (amended): switching `next` past the single
persisted document is a no-op apart from the save. -/
theorem switch_at_boundary_noop_witness :
    fsOneDoc.docs.Nodup ∧
      ((switch_document fsOneDoc sOnLast 1 5).1.text = sOnLast.text ∧
        (switch_document fsOneDoc sOnLast 1 5).1.cursor = sOnLast.cursor ∧
        (switch_document fsOneDoc sOnLast 1 5).1.docPath = sOnLast.docPath ∧
        (switch_document fsOneDoc sOnLast 1 5).1.scrollOffset =
          sOnLast.scrollOffset ∧
        (switch_document fsOneDoc sOnLast 1 5).1.dirty = false) :=
  ⟨by decide,
    switch_at_boundary_noop fsOneDoc sOnLast 1 5 (by decide)
      (Or.inl ⟨rfl, "doc_a.txt", by decide, rfl⟩)⟩

/-- Counterexample for C7 as stated: at the last document with
direction `next`, the switch is *not* a complete no-op — the dirty flag
is cleared by the save that precedes the bounds check. -/
theorem switch_at_last_clears_dirty :
    sOnLast.dirty = true ∧
      (switch_document fsOneDoc sOnLast 1 5).1.dirty = false := by
  constructor <;> decide

/-- The visual lines built by `_wrap_with_cursor` do not depend on the
running line/offset counters. -/
theorem buildParas_fst_indep (cpl : Nat) (ps : List (List Char))
    (i j i' j' : Nat) :
    (buildParas cpl ps i j).1 = (buildParas cpl ps i' j').1 := by
  induction ps generalizing i j i' j' with
  | nil => rfl
  | cons p t ih =>
    by_cases hp : p = []
    · simp only [buildParas, if_pos hp]
      rcases h1 : buildParas cpl t (i + 1) (j + 1) with ⟨ls, es⟩
      rcases h2 : buildParas cpl t (i' + 1) (j' + 1) with ⟨ls', es'⟩
      have := ih (i + 1) (j + 1) (i' + 1) (j' + 1)
      rw [h1, h2] at this
      simpa using this
    · simp only [buildParas, if_neg hp]
      rcases h1 : buildParas cpl t (i + (wrapParaF cpl p).length)
          (j + p.length + 1) with ⟨ls, es⟩
      rcases h2 : buildParas cpl t (i' + (wrapParaF cpl p).length)
          (j' + p.length + 1) with ⟨ls', es'⟩
      have := ih (i + (wrapParaF cpl p).length) (j + p.length + 1)
        (i' + (wrapParaF cpl p).length) (j' + p.length + 1)
      rw [h1, h2] at this
      simpa using this

/-- The inner inverse walk returns nothing when the target line is at
or past the end of this paragraph's lines. -/
theorem posWalkPara_none (para : List Char) (textPos tL tC : Nat)
    (w : List (List Char)) (lineIdx pc : Nat)
    (h : lineIdx + w.length ≤ tL) :
    posWalkPara para textPos tL tC w lineIdx pc = none := by
  induction w generalizing lineIdx pc with
  | nil => rfl
  | cons l ls ih =>
    have hne : lineIdx ≠ tL := by
      simp only [List.length_cons] at h
      omega
    simp only [posWalkPara, if_neg hne]
    apply ih
    simp only [List.length_cons] at h
    omega

/-- The outer inverse walk returns nothing when the target line is at
or past the total number of visual lines. -/
theorem posParas_none (cpl tL tC : Nat) (ps : List (List Char))
    (lineIdx textPos : Nat)
    (h : lineIdx + (buildParas cpl ps 0 0).1.length ≤ tL) :
    posParas cpl tL tC ps lineIdx textPos = none := by
  induction ps generalizing lineIdx textPos with
  | nil => rfl
  | cons p t ih =>
    by_cases hp : p = []
    · have hlen : (buildParas cpl (p :: t) 0 0).1.length =
          (buildParas cpl t 0 0).1.length + 1 := by
        simp only [buildParas, if_pos hp]
        rcases h1 : buildParas cpl t 1 1 with ⟨ls, es⟩
        have := buildParas_fst_indep cpl t 1 1 0 0
        rw [h1] at this
        simp [← this]
      rw [hlen] at h
      have hne : lineIdx ≠ tL := by omega
      simp only [posParas, if_pos hp, if_neg hne]
      exact ih (lineIdx + 1) (textPos + 1) (by omega)
    · have hlen : (buildParas cpl (p :: t) 0 0).1.length =
          (wrapParaF cpl p).length + (buildParas cpl t 0 0).1.length := by
        simp only [buildParas, if_neg hp]
        rcases h1 : buildParas cpl t (0 + (wrapParaF cpl p).length)
            (0 + p.length + 1) with ⟨ls, es⟩
        have := buildParas_fst_indep cpl t (0 + (wrapParaF cpl p).length)
          (0 + p.length + 1) 0 0
        rw [h1] at this
        simp [← this]
      rw [hlen] at h
      simp only [posParas, if_neg hp]
      rw [posWalkPara_none _ _ _ _ _ _ _ (by omega)]
      exact ih (lineIdx + (wrapParaF cpl p).length) (textPos + p.length + 1)
        (by omega)

/-- Claim C10: for any target line at or past the total number of
visual lines, `_pos_from_line_col` returns `len(text)` for every
non-negative target column. -/
theorem pos_from_line_col_past_end (cpl : Nat) (text : List Char)
    (tL tC : Nat) (hcpl : 1 ≤ cpl) (h : (wrapLines cpl text).length ≤ tL) :
    pos_from_line_col cpl text tL tC = text.length := by
  unfold pos_from_line_col
  rw [posParas_none]
  · rfl
  · unfold wrapLines at h
    rcases hb : (buildParas cpl (splitNL text) 0 0).1 with _ | ⟨l, ls⟩
    · simp [hb]
    · rw [hb] at h
      simpa [hb] using h

/-- Witness for C10: in `"ab"` at width 1 there are two visual lines;
line 5, column 7 maps to the end of text. -/
theorem pos_from_line_col_past_end_witness :
    1 ≤ 1 ∧ (wrapLines 1 ['a', 'b']).length ≤ 5 ∧
      pos_from_line_col 1 ['a', 'b'] 5 7 = 2 :=
  ⟨by decide, by decide,
    pos_from_line_col_past_end 1 ['a', 'b'] 5 7 (by decide) (by decide)⟩

/-- Claim C4 fails on the code: with `text = "\ta"` (a tab, as loaded
from a file, followed by one letter) and cursor 0, pressing End moves
the cursor to offset 9, far beyond `len(text) = 2`.  `expandtabs`
makes the visual line 9 columns long while the offset bookkeeping of
`_wrap_with_cursor` / `_pos_from_line_col` still counts the tab as one
character, so the clamp `min(target_col, len(w_line))` no longer stays
within the paragraph. -/
theorem end_key_tab_cursor_out_of_range :
    (mkState ['\t', 'a'] 0).text.length = 2 ∧
      (handle_key fsEmpty (mkState ['\t', 'a'] 0) KEY_END 1 0).1.cursor = 9 := by
  constructor <;> decide

/-- `_cursor_up` never touches the modifier state. -/
theorem cursor_up_ctrlHeld (s : AppState) :
    (cursor_up s).ctrlHeld = s.ctrlHeld := by
  unfold cursor_up
  dsimp only
  split_ifs <;> rfl

/-- `_cursor_down` never touches the modifier state. -/
theorem cursor_down_ctrlHeld (s : AppState) :
    (cursor_down s).ctrlHeld = s.ctrlHeld := by
  unfold cursor_down
  dsimp only
  split_ifs <;> rfl

/-- With Ctrl not held and a non-Ctrl keycode, `_handle_key` emits no
commands at all and leaves Ctrl unheld. -/
theorem handle_key_no_ctrl (fs : Fs) (s : AppState) (k v : Nat) (now : Int)
    (hc : s.ctrlHeld = false) (h1 : k ≠ KEY_LEFTCTRL) (h2 : k ≠ KEY_RIGHTCTRL) :
    (handle_key fs s k v now).2 = [] ∧
      (handle_key fs s k v now).1.ctrlHeld = false := by
  unfold handle_key
  by_cases hs : k = KEY_LEFTSHIFT ∨ k = KEY_RIGHTSHIFT
  · rw [if_pos hs]
    exact ⟨rfl, hc⟩
  rw [if_neg hs, if_neg (by simp [h1, h2] : ¬(k = KEY_LEFTCTRL ∨ k = KEY_RIGHTCTRL))]
  by_cases hv : v = 0
  · rw [if_pos hv]
    exact ⟨rfl, hc⟩
  rw [if_neg hv]
  rw [if_neg (by simp [hc] : ¬(s.ctrlHeld ∧ k = KEY_Q))]
  rw [if_neg (by simp [hc] : ¬(s.ctrlHeld ∧ k = KEY_S))]
  rw [if_neg (by simp [hc] : ¬(s.ctrlHeld ∧ k = KEY_N))]
  rw [if_neg (by simp [hc] : ¬(s.ctrlHeld ∧ k = KEY_R))]
  rw [if_neg (by simp [hc] : ¬(s.ctrlHeld ∧ k = KEY_LEFT))]
  rw [if_neg (by simp [hc] : ¬(s.ctrlHeld ∧ k = KEY_RIGHT))]
  by_cases ha : k = KEY_LEFT
  · rw [if_pos ha]
    exact ⟨rfl, by split_ifs <;> exact hc⟩
  rw [if_neg ha]
  by_cases ha : k = KEY_RIGHT
  · rw [if_pos ha]
    exact ⟨rfl, by split_ifs <;> exact hc⟩
  rw [if_neg ha]
  by_cases ha : k = KEY_UP
  · rw [if_pos ha]
    exact ⟨rfl, by rw [show ({ cursor_up s with needsDisplayUpdate := true }
      : AppState).ctrlHeld = (cursor_up s).ctrlHeld from rfl,
      cursor_up_ctrlHeld]; exact hc⟩
  rw [if_neg ha]
  by_cases ha : k = KEY_DOWN
  · rw [if_pos ha]
    exact ⟨rfl, by rw [show ({ cursor_down s with needsDisplayUpdate := true }
      : AppState).ctrlHeld = (cursor_down s).ctrlHeld from rfl,
      cursor_down_ctrlHeld]; exact hc⟩
  rw [if_neg ha]
  by_cases ha : k = KEY_HOME
  · rw [if_pos ha]
    exact ⟨rfl, hc⟩
  rw [if_neg ha]
  by_cases ha : k = KEY_END
  · rw [if_pos ha]
    exact ⟨rfl, hc⟩
  rw [if_neg ha]
  by_cases ha : k = KEY_ENTER
  · rw [if_pos ha]
    exact ⟨rfl, hc⟩
  rw [if_neg ha]
  by_cases ha : k = KEY_BACKSPACE
  · rw [if_pos ha]
    exact ⟨rfl, by split_ifs <;> exact hc⟩
  rw [if_neg ha]
  by_cases ha : k = KEY_DELETE
  · rw [if_pos ha]
    exact ⟨rfl, by split_ifs <;> exact hc⟩
  rw [if_neg ha]
  rcases hkm : keymap k with _ | ⟨nrm, shf⟩ <;> simp [hkm, hc]

/-- Folding `_handle_key` over a Ctrl-free event batch emits no
commands and keeps Ctrl unheld. -/
theorem fold_events_no_ctrl (fs : Fs) (now : Int)
    (events : List (Nat × Nat)) :
    ∀ (s : AppState) (acc : List Cmd), s.ctrlHeld = false →
      (∀ ev ∈ events, ev.1 ≠ KEY_LEFTCTRL ∧ ev.1 ≠ KEY_RIGHTCTRL) →
      (events.foldl
        (fun (a : AppState × List Cmd) ev =>
          ((handle_key fs a.1 ev.1 ev.2 now).1,
            a.2 ++ (handle_key fs a.1 ev.1 ev.2 now).2))
        (s, acc)).2 = acc ∧
      (events.foldl
        (fun (a : AppState × List Cmd) ev =>
          ((handle_key fs a.1 ev.1 ev.2 now).1,
            a.2 ++ (handle_key fs a.1 ev.1 ev.2 now).2))
        (s, acc)).1.ctrlHeld = false := by
  induction events with
  | nil => exact fun s acc hc _ => ⟨rfl, hc⟩
  | cons ev evs ih =>
    intro s acc hc hev
    have h0 := hev ev (by simp)
    have hk := handle_key_no_ctrl fs s ev.1 ev.2 now hc h0.1 h0.2
    simp only [List.foldl_cons, hk.1, List.append_nil]
    exact ih _ acc hk.2 (fun e he => hev e (by simp [he]))

/-- The autosave check never emits a display command: `save_document`
only writes the file and resets the timer. -/
theorem check_autosave_no_display (s : AppState) (now : Int) :
    ∀ d ∈ (check_autosave s now).2, d.isDisplayPush = false := by
  intro d hd
  unfold check_autosave save_document at hd
  split_ifs at hd
  · rcases hdp : s.docPath with _ | p <;> rw [hdp] at hd <;> simp at hd
    rw [hd]
    rfl
  · simp at hd

/-- Claim C8 fails on the code: there is no time-triggered full-refresh
step in the session loop.  Whatever the clock says, an iteration whose
event batch contains no Ctrl keys (in particular an idle iteration, the
only place a time-based cadence could fire) pushes at most the partial
frame for a pending redraw — every display push it emits is
`display_image_partial`.  (The module docstring promises "Full refresh
every 5 minutes", but `_main_loop` only renders partial frames and
autosaves; full refreshes happen solely on the explicit Ctrl+R/sleep
commands.) -/
theorem loop_display_pushes_part_only (fs : Fs) (s : AppState)
    (events : List (Nat × Nat)) (t : Int)
    (hc : s.ctrlHeld = false)
    (hev : ∀ ev ∈ events, ev.1 ≠ KEY_LEFTCTRL ∧ ev.1 ≠ KEY_RIGHTCTRL) :
    ∀ c ∈ (main_loop_iter fs s events t).2,
      c.isDisplayPush = true → c = Cmd.pushPart := by
  intro c hmem hdisp
  unfold main_loop_iter at hmem
  dsimp only at hmem
  have hf := fold_events_no_ctrl fs t events s [] hc hev
  rw [hf.1] at hmem
  simp only [List.nil_append, List.mem_append] at hmem
  rcases hmem with hmem | hmem
  · split_ifs at hmem <;> simp at hmem
    rw [hmem]
  · exact absurd hdisp (by simp [check_autosave_no_display _ t c hmem])

/-! ## Supporting lemmas: chunk arithmetic and dictionary lookups -/

theorem sumLen_cons (c : List Char) (cs : List (List Char)) :
    sumLen (c :: cs) = c.length + sumLen cs := rfl

theorem sumLen_append (a b : List (List Char)) :
    sumLen (a ++ b) = sumLen a + sumLen b := by
  induction a with
  | nil => simp [sumLen]
  | cons c cs ih => simp only [List.cons_append, sumLen_cons, ih]; omega

theorem sumLen_flatten (l : List (List Char)) :
    l.flatten.length = sumLen l := by
  induction l with
  | nil => rfl
  | cons c cs ih => simp [sumLen_cons, ih]

theorem greedyTake_append (width : Nat) (chunks : List (List Char)) :
    ∀ curLen, (greedyTake width curLen chunks).1 ++
      (greedyTake width curLen chunks).2 = chunks := by
  induction chunks with
  | nil => intro _; rfl
  | cons c cs ih =>
    intro curLen
    unfold greedyTake
    split_ifs with h
    · simp [ih]
    · rfl

theorem greedyTake_fits (width : Nat) (chunks : List (List Char)) :
    ∀ curLen, (greedyTake width curLen chunks).1 ≠ [] →
      curLen + sumLen (greedyTake width curLen chunks).1 ≤ width := by
  induction chunks with
  | nil => intro _ h; exact absurd rfl h
  | cons c cs ih =>
    intro curLen hne
    unfold greedyTake at hne ⊢
    split_ifs at hne ⊢ with h
    · by_cases ht : (greedyTake width (curLen + c.length) cs).1 = []
      · simp only [sumLen_cons, ht, sumLen]
        simpa using h
      · have := ih (curLen + c.length) ht
        simp only [sumLen_cons]
        omega
    · exact absurd rfl hne

theorem greedyTake_stop (width : Nat) (chunks : List (List Char)) :
    ∀ curLen c cs, (greedyTake width curLen chunks).2 = c :: cs →
      width < curLen + sumLen (greedyTake width curLen chunks).1 + c.length := by
  induction chunks with
  | nil => intro _ _ _ h; exact absurd h (by simp [greedyTake])
  | cons d ds ih =>
    intro curLen c cs h
    unfold greedyTake at h ⊢
    split_ifs at h ⊢ with hf
    · have := ih (curLen + d.length) c cs (by simpa using h)
      simp only [sumLen_cons]
      omega
    · simp only at h
      obtain ⟨rfl, rfl⟩ := List.cons.injEq .. ▸ h
      simp only [sumLen]
      omega

theorem lookupLast_acc (l : List (Nat × Nat × Nat)) (k : Nat) :
    ∀ acc, l.foldl (fun a e => if e.1 = k then some e.2 else a) acc =
      match lookupLast l k with
      | some v => some v
      | none => acc := by
  induction l with
  | nil => intro _; rfl
  | cons e es ih =>
    intro acc
    show es.foldl _ (if e.1 = k then some e.2 else acc) = _
    rw [ih]
    conv_rhs => rw [show lookupLast (e :: es) k =
      es.foldl (fun a e => if e.1 = k then some e.2 else a)
        (if e.1 = k then some e.2 else none) from rfl, ih]
    rcases lookupLast es k with _ | v
    · split_ifs <;> rfl
    · rfl

theorem lookupLast_append (a b : List (Nat × Nat × Nat)) (k : Nat) :
    lookupLast (a ++ b) k =
      match lookupLast b k with
      | some v => some v
      | none => lookupLast a k := by
  show (a ++ b).foldl _ none = _
  rw [List.foldl_append]
  exact lookupLast_acc b k _

theorem lookupLast_none (l : List (Nat × Nat × Nat)) (k : Nat)
    (h : ∀ e ∈ l, e.1 ≠ k) : lookupLast l k = none := by
  induction l with
  | nil => rfl
  | cons e es ih =>
    have : lookupLast (e :: es) k =
        match lookupLast es k with
        | some v => some v
        | none => lookupLast [e] k := lookupLast_append [e] es k
    rw [this, ih (fun x hx => h x (by simp [hx]))]
    show (if e.1 = k then some e.2 else none) = none
    rw [if_neg (h e (by simp))]

theorem getD_drop (l : List Char) (n m : Nat) (d : Char) :
    (l.drop n).getD m d = l.getD (n + m) d := by
  simp [List.getD, List.getElem?_drop]

/-! ## Facts about clean chunk lists -/

theorem allWS_space : allWS [' '] = true := by decide

theorem allWS_word {w : List Char} (hne : w ≠ [])
    (hw : ∀ c ∈ w, pyWS c = false) : allWS w = false := by
  cases w with
  | nil => exact absurd rfl hne
  | cons c cs =>
    have := hw c (by simp)
    simp [allWS, this]

theorem goodChunks_false_cons {c : List Char} {t : List (List Char)}
    (h : GoodChunks false (c :: t)) :
    c ≠ [] ∧ (∀ ch ∈ c, pyWS ch = false) ∧ GoodChunks true t := by
  cases h with
  | word hne hw ht => exact ⟨hne, hw, ht⟩

theorem goodChunks_cons_inv {b : Bool} {c : List Char} {t : List (List Char)}
    (h : GoodChunks b (c :: t)) :
    (c = [' '] ∧ b = true ∧ GoodChunks false t) ∨
    (c ≠ [] ∧ (∀ ch ∈ c, pyWS ch = false) ∧ GoodChunks true t) := by
  cases h with
  | word hne hw ht => exact Or.inr ⟨hne, hw, ht⟩
  | space ht => exact Or.inl ⟨rfl, rfl, ht⟩

theorem goodChunks_append_right :
    ∀ (xs : List (List Char)) (b : Bool) (ys : List (List Char)),
      GoodChunks b (xs ++ ys) →
      GoodChunks (match xs.getLast? with
        | none => b
        | some w => !allWS w) ys := by
  intro xs
  induction xs with
  | nil => intro b ys h; exact h
  | cons x xs' ih =>
    intro b ys h
    rcases goodChunks_cons_inv h with ⟨hx, _, ht⟩ | ⟨hne, hw, ht⟩
    · have := ih false ys ht
      cases xs' with
      | nil => simpa [hx, allWS_space] using this
      | cons a t => simpa using this
    · have := ih true ys ht
      cases xs' with
      | nil => simpa [allWS_word hne hw] using this
      | cons a t => simpa using this


theorem wrapGo_drop_space (width fuel : Nat) (cs : List (List Char))
    (h : ∀ c cs', cs = c :: cs' → allWS c = false) :
    wrapGo width fuel true ([' '] :: cs) = wrapGo width fuel true cs := by
  cases fuel with
  | zero => rfl
  | succ f =>
    cases cs with
    | nil =>
      show wrapGo width (f + 1) true [[' ']] = []
      simp only [wrapGo, allWS_space, Bool.and_self]
      simp only [greedyTake]
      norm_num
      cases f <;> rfl
    | cons c cs' =>
      have hc := h c cs' rfl
      show wrapGo width (f + 1) true ([' '] :: c :: cs') =
        wrapGo width (f + 1) true (c :: cs')
      simp only [wrapGo, allWS_space, Bool.and_self, hc, Bool.and_false]
      norm_num

theorem goodChunks_mem {b : Bool} {l : List (List Char)}
    (h : GoodChunks b l) :
    ∀ x ∈ l, x ≠ [] ∧ (x = [' '] ∨ ∀ ch ∈ x, pyWS ch = false) := by
  induction l generalizing b with
  | nil => intro x hx; simp at hx
  | cons c t ih =>
    intro x hx
    rcases goodChunks_cons_inv h with ⟨hc, _, ht⟩ | ⟨hne, hw, ht⟩
    · rcases List.mem_cons.mp hx with rfl | hx'
      · exact ⟨by simp [hc], Or.inl hc⟩
      · exact ih ht x hx'
    · rcases List.mem_cons.mp hx with rfl | hx'
      · exact ⟨hne, Or.inr hw⟩
      · exact ih ht x hx'

theorem getLastD_mem {l : List (List Char)} (h : l ≠ []) :
    l.getLastD [] ∈ l := by
  cases hl : l.getLast? with
  | none => exact absurd (List.getLast?_eq_none_iff.mp hl) h
  | some a =>
    rw [List.getLastD_eq_getLast?, hl]
    exact List.mem_of_getLast?_eq_some hl

theorem eq_dropLast_concat_getLastD {l : List (List Char)} (h : l ≠ []) :
    l = l.dropLast ++ [l.getLastD []] := by
  conv_lhs => rw [← List.dropLast_concat_getLast h]
  congr 1
  rw [List.getLastD_eq_getLast?, List.getLast?_eq_getLast l h]
  rfl

theorem getLast?_flag {g : List (List Char)} (h : g ≠ []) :
    (match g.getLast? with
      | none => false
      | some w => !allWS w) = !allWS (g.getLastD []) := by
  cases hgl : g.getLast? with
  | none => exact absurd (List.getLast?_eq_none_iff.mp hgl) h
  | some w =>
    rw [List.getLastD_eq_getLast?, hgl]
    rfl

theorem wrapGo_step (width : Nat) (hw : 1 ≤ width) (fuel : Nat) (emitted : Bool)
    (chunks : List (List Char)) (hg : GoodChunks false chunks)
    (hne : chunks ≠ []) :
    ∃ (line : List Char) (s : Bool) (rest : List (List Char)),
      wrapGo width (fuel + 1) emitted chunks =
        line :: wrapGo width fuel true rest ∧
      line ≠ [] ∧ line.length ≤ width ∧
      chunks.flatten = line ++ (if s then [' '] else []) ++ rest.flatten ∧
      GoodChunks false rest ∧
      sumLen rest + line.length + (if s then 1 else 0) = sumLen chunks := by
  obtain ⟨c0, cs0, rfl⟩ : ∃ c0 cs0, chunks = c0 :: cs0 := by
    cases chunks with
    | nil => exact absurd rfl hne
    | cons a b => exact ⟨a, b, rfl⟩
  obtain ⟨hc0ne, hc0w, hcs0⟩ := goodChunks_false_cons hg
  have hall : allWS c0 = false := allWS_word hc0ne hc0w
  rcases hgr : greedyTake width 0 (c0 :: cs0) with ⟨g, r⟩
  have happ : g ++ r = c0 :: cs0 := by
    have := greedyTake_append width (c0 :: cs0) 0
    rw [hgr] at this
    exact this
  have hfits : g ≠ [] → sumLen g ≤ width := by
    intro h
    have := greedyTake_fits width (c0 :: cs0) 0 (by rw [hgr]; exact h)
    rw [hgr] at this
    simpa using this
  have hgsub : GoodChunks false (g ++ r) := happ ▸ hg
  have hsuffix := goodChunks_append_right g false r hgsub
  have hmemgr : ∀ x ∈ g ++ r, x ≠ [] ∧ (x = [' '] ∨ ∀ ch ∈ x, pyWS ch = false) :=
    goodChunks_mem hgsub
  have hghead : g ≠ [] → ∃ gt, g = c0 :: gt := by
    intro h
    cases hgc : g with
    | nil => exact absurd hgc h
    | cons x gt =>
      rw [hgc] at happ
      have := (List.cons.injEq .. ▸ happ).1
      exact ⟨gt, by rw [this]⟩
  rcases r with _ | ⟨c, cs⟩
  -- CASE: greedy took everything
  · have hge : g = c0 :: cs0 := by simpa using happ
    have hgne : g ≠ [] := by rw [hge]; exact (by simp)
    have hstep : wrapGo width (fuel + 1) emitted (c0 :: cs0) =
        (if (if g ≠ [] ∧ allWS (g.getLastD []) then g.dropLast else g) ≠ [] then
          [(if g ≠ [] ∧ allWS (g.getLastD []) then g.dropLast else g).flatten]
         else []) ++
          wrapGo width fuel
            (emitted || decide
              ((if g ≠ [] ∧ allWS (g.getLastD []) then g.dropLast else g) ≠ []))
            [] := by
      simp only [wrapGo, hall, Bool.and_false, Bool.false_eq_true, if_false, hgr]
    by_cases hlast : allWS (g.getLastD []) = true
    · -- trailing space chunk dropped
      have hsp : g.getLastD [] = [' '] := by
        rcases hmemgr _ (List.mem_append_left [] (getLastD_mem hgne)) with ⟨hne', hsp | hw'⟩
        · exact hsp
        · rw [allWS_word hne' hw'] at hlast
          exact absurd hlast (by simp)
      obtain ⟨gt, hgt⟩ := hghead hgne
      have hgtne : gt ≠ [] := by
        intro h
        rw [hgt, h] at hsp
        simp at hsp
        exact absurd hlast (by rw [hgt, h]; simpa [hsp] using hall)
      have hdrop_ne : g.dropLast ≠ [] := by
        rw [hgt]
        cases hgc : gt with
        | nil => exact absurd hgc hgtne
        | cons y ys => simp [List.dropLast]
      have hdec : g = g.dropLast ++ [[' ']] := by
        conv_lhs => rw [eq_dropLast_concat_getLastD hgne]
        rw [hsp]
      have hflat_ne : g.dropLast.flatten ≠ [] := by
        rw [hgt]
        cases hgc : gt with
        | nil => exact absurd hgc hgtne
        | cons y ys =>
          simp only [List.dropLast, List.flatten_cons]
          intro hcon
          exact hc0ne (List.append_eq_nil.mp hcon).1
      refine ⟨g.dropLast.flatten, true, [], ?_, hflat_ne, ?_, ?_, GoodChunks.nil, ?_⟩
      · rw [hstep, if_pos (And.intro hgne hlast), if_pos hdrop_ne]
        simp [decide_eq_true hdrop_ne]
      · have h1 : sumLen g = sumLen g.dropLast + 1 := by
          conv_lhs => rw [hdec]
          rw [sumLen_append]
          rfl
        have h4 := hfits hgne
        have h2 : g.dropLast.flatten.length = sumLen g.dropLast :=
          sumLen_flatten _
        omega
      · conv_lhs => rw [← hge, hdec]
        simp
      · have h1 : sumLen g = sumLen g.dropLast + 1 := by
          conv_lhs => rw [hdec]
          rw [sumLen_append]
          rfl
        have h2 : g.dropLast.flatten.length = sumLen g.dropLast :=
          sumLen_flatten _
        have h3 : sumLen (c0 :: cs0) = sumLen g := by rw [hge]
        show 0 + g.dropLast.flatten.length + 1 = sumLen (c0 :: cs0)
        omega
    · -- whole line kept
      refine ⟨g.flatten, false, [], ?_, ?_, ?_, ?_, GoodChunks.nil, ?_⟩
      · have hcond : ¬(g ≠ [] ∧ allWS (g.getLastD []) = true) :=
          fun h => hlast h.2
        rw [hstep, if_neg hcond, if_pos hgne]
        simp [decide_eq_true hgne]
      · rw [hge]
        simp only [List.flatten_cons]
        intro hcon
        exact hc0ne (List.append_eq_nil.mp hcon).1
      · have h2 : g.flatten.length = sumLen g := sumLen_flatten _
        have h4 := hfits hgne
        omega
      · rw [← hge]
        simp
      · have h2 : g.flatten.length = sumLen g := sumLen_flatten _
        have h3 : sumLen (c0 :: cs0) = sumLen g := by rw [hge]
        show 0 + g.flatten.length + 0 = sumLen (c0 :: cs0)
        omega
  -- CASE: a chunk did not fit
  · have hstop : width < sumLen g + c.length := by
      have := greedyTake_stop width (c0 :: cs0) 0 c cs (by rw [hgr])
      rw [hgr] at this
      simpa using this
    by_cases hlw : width < c.length
    · -- long-word split
      rcases hmemgr c (by simp) with ⟨hcne, hcsp | hcw⟩
      · rw [hcsp] at hlw
        simp at hlw
        omega
      have hsl : handleLongWord width (sumLen g) c =
          (c.take (width - sumLen g), c.drop (width - sumLen g)) := by
        unfold handleLongWord
        rw [if_neg (by omega)]
      have hstep : wrapGo width (fuel + 1) emitted (c0 :: cs0) =
          (if (if g ++ [c.take (width - sumLen g)] ≠ [] ∧
                allWS ((g ++ [c.take (width - sumLen g)]).getLastD []) then
              (g ++ [c.take (width - sumLen g)]).dropLast
             else g ++ [c.take (width - sumLen g)]) ≠ [] then
            [(if g ++ [c.take (width - sumLen g)] ≠ [] ∧
                allWS ((g ++ [c.take (width - sumLen g)]).getLastD []) then
              (g ++ [c.take (width - sumLen g)]).dropLast
             else g ++ [c.take (width - sumLen g)]).flatten]
           else []) ++
            wrapGo width fuel
              (emitted || decide ((if g ++ [c.take (width - sumLen g)] ≠ [] ∧
                allWS ((g ++ [c.take (width - sumLen g)]).getLastD []) then
                (g ++ [c.take (width - sumLen g)]).dropLast
               else g ++ [c.take (width - sumLen g)]) ≠ []))
              (c.drop (width - sumLen g) :: cs) := by
        simp only [wrapGo, hall, Bool.and_false, Bool.false_eq_true, if_false,
          hgr, if_pos hlw, hsl]
      have hremne : c.drop (width - sumLen g) ≠ [] := by
        intro h
        rw [List.drop_eq_nil_iff] at h
        omega
      have hcsgood : GoodChunks true cs := by
        rcases goodChunks_cons_inv hsuffix with ⟨hceq, _, _⟩ | ⟨_, _, h⟩
        · rw [hceq] at hlw
          simp at hlw
          omega
        · exact h
      have hrest : GoodChunks false (c.drop (width - sumLen g) :: cs) :=
        GoodChunks.word hremne
          (fun ch hch => hcw ch (List.mem_of_mem_drop hch)) hcsgood
      by_cases hpe : c.take (width - sumLen g) = []
      · -- empty long-word piece, dropped as trailing whitespace
        have hslz : width - sumLen g = 0 := by
          rcases List.take_eq_nil_iff.mp hpe with h | h
          · exact h
          · exact absurd h hcne
        have hgne : g ≠ [] := by
          intro h
          rw [h] at hslz
          simp only [sumLen, List.map_nil, List.foldr_nil, Nat.sub_zero] at hslz
          omega
        have hgw : sumLen g ≤ width := hfits hgne
        obtain ⟨gt, hgt⟩ := hghead hgne
        have hfne : g.flatten ≠ [] := by
          rw [hgt]
          simp only [List.flatten_cons]
          intro hcon
          exact hc0ne (List.append_eq_nil.mp hcon).1
        have hdropc : c.drop (width - sumLen g) = c := by
          rw [hslz]
          rfl
        refine ⟨g.flatten, false, c :: cs, ?_, hfne, ?_, ?_, ?_, ?_⟩
        · rw [hstep, hpe]
          rw [if_pos (And.intro (by simp)
            (by rw [List.getLastD_concat]; rfl :
              allWS ((g ++ [([] : List Char)]).getLastD []) = true))]
          rw [List.dropLast_concat, if_pos hgne, hdropc]
          simp [decide_eq_true hgne]
        · have h2 : g.flatten.length = sumLen g := sumLen_flatten _
          omega
        · rw [← happ]
          simp
        · exact GoodChunks.word hcne hcw hcsgood
        · have h2 : g.flatten.length = sumLen g := sumLen_flatten _
          have h3 : sumLen (c0 :: cs0) = sumLen g + (c.length + sumLen cs) := by
            rw [← happ, sumLen_append, sumLen_cons]
          show sumLen (c :: cs) + g.flatten.length + 0 = sumLen (c0 :: cs0)
          rw [sumLen_cons]
          omega
      · -- non-empty long-word piece
        have hpw : ∀ ch ∈ c.take (width - sumLen g), pyWS ch = false :=
          fun ch hch => hcw ch (List.mem_of_mem_take hch)
        have hpallws : allWS (c.take (width - sumLen g)) = false :=
          allWS_word hpe hpw
        have hcl2ne : g ++ [c.take (width - sumLen g)] ≠ [] := by simp
        have hcond : ¬(g ++ [c.take (width - sumLen g)] ≠ [] ∧
            allWS ((g ++ [c.take (width - sumLen g)]).getLastD []) = true) := by
          intro h
          have h2 := h.2
          rw [List.getLastD_concat, hpallws] at h2
          exact absurd h2 (by simp)
        have hflat2 : (g ++ [c.take (width - sumLen g)]).flatten =
            g.flatten ++ c.take (width - sumLen g) := by
          simp
        have hgle : sumLen g ≤ width := by
          cases hgc : g with
          | nil => simp [sumLen]
          | cons x xs => exact hgc ▸ hfits (by simp [hgc])
        have htlen : (c.take (width - sumLen g)).length = width - sumLen g := by
          rw [List.length_take]
          omega
        have hlne : (g ++ [c.take (width - sumLen g)]).flatten ≠ [] := by
          rw [hflat2]
          intro hcon
          exact hpe (List.append_eq_nil.mp hcon).2
        refine ⟨(g ++ [c.take (width - sumLen g)]).flatten, false,
          c.drop (width - sumLen g) :: cs, ?_, hlne, ?_, ?_, hrest, ?_⟩
        · rw [hstep, if_neg hcond, if_pos hcl2ne]
          simp [decide_eq_true hcl2ne]
        · rw [hflat2]
          have h2 : g.flatten.length = sumLen g := sumLen_flatten _
          rw [List.length_append, h2, htlen]
          omega
        · rw [← happ, hflat2]
          simp only [List.flatten_append, List.flatten_cons, List.append_nil,
            List.append_assoc, List.nil_append, Bool.false_eq_true, if_false]
          rw [← List.append_assoc (List.take (width - sumLen g) c),
            List.take_append_drop]
        · have h2 : g.flatten.length = sumLen g := sumLen_flatten _
          have h3 : sumLen (c0 :: cs0) = sumLen g + (c.length + sumLen cs) := by
            rw [← happ, sumLen_append, sumLen_cons]
          have h4 : (c.drop (width - sumLen g)).length =
              c.length - (width - sumLen g) := List.length_drop ..
          show sumLen (c.drop (width - sumLen g) :: cs) +
            (g ++ [c.take (width - sumLen g)]).flatten.length + 0 =
            sumLen (c0 :: cs0)
          rw [sumLen_cons, hflat2, List.length_append, h2, htlen]
          omega
    · -- the chunk simply does not fit on this line
      have hgne : g ≠ [] := by
        intro h
        rw [h] at hstop
        simp only [sumLen, List.map_nil, List.foldr_nil, Nat.zero_add] at hstop
        omega
      obtain ⟨gt, hgt⟩ := hghead hgne
      have hstep : wrapGo width (fuel + 1) emitted (c0 :: cs0) =
          (if (if g ≠ [] ∧ allWS (g.getLastD []) then g.dropLast else g) ≠ []
            then [(if g ≠ [] ∧ allWS (g.getLastD []) then g.dropLast else g).flatten]
           else []) ++
            wrapGo width fuel
              (emitted || decide
                ((if g ≠ [] ∧ allWS (g.getLastD []) then g.dropLast else g) ≠ []))
              (c :: cs) := by
        simp only [wrapGo, hall, Bool.and_false, Bool.false_eq_true, if_false,
          hgr, if_neg hlw]
      rw [getLast?_flag hgne] at hsuffix
      by_cases hlast : allWS (g.getLastD []) = true
      · -- trailing space chunk dropped; the next chunk is a word
        rw [hlast] at hsuffix
        simp only [Bool.not_true] at hsuffix
        have hsp : g.getLastD [] = [' '] := by
          rcases hmemgr _ (List.mem_append_left (c :: cs) (getLastD_mem hgne))
            with ⟨hne', hsp | hw'⟩
          · exact hsp
          · rw [allWS_word hne' hw'] at hlast
            exact absurd hlast (by simp)
        have hgtne : gt ≠ [] := by
          intro h
          rw [hgt, h] at hsp
          simp at hsp
          exact absurd hlast (by rw [hgt, h]; simpa [hsp] using hall)
        have hdrop_ne : g.dropLast ≠ [] := by
          rw [hgt]
          cases hgc : gt with
          | nil => exact absurd hgc hgtne
          | cons y ys => simp [List.dropLast]
        have hdec : g = g.dropLast ++ [[' ']] := by
          conv_lhs => rw [eq_dropLast_concat_getLastD hgne]
          rw [hsp]
        have hflat_ne : g.dropLast.flatten ≠ [] := by
          rw [hgt]
          cases hgc : gt with
          | nil => exact absurd hgc hgtne
          | cons y ys =>
            simp only [List.dropLast, List.flatten_cons]
            intro hcon
            exact hc0ne (List.append_eq_nil.mp hcon).1
        have h1 : sumLen g = sumLen g.dropLast + 1 := by
          conv_lhs => rw [hdec]
          rw [sumLen_append]
          rfl
        refine ⟨g.dropLast.flatten, true, c :: cs, ?_, hflat_ne, ?_, ?_,
          hsuffix, ?_⟩
        · rw [hstep, if_pos (And.intro hgne hlast), if_pos hdrop_ne]
          simp [decide_eq_true hdrop_ne]
        · have h4 := hfits hgne
          have h2 : g.dropLast.flatten.length = sumLen g.dropLast :=
            sumLen_flatten _
          omega
        · rw [← happ]
          conv_lhs => rw [hdec]
          simp
        · have h2 : g.dropLast.flatten.length = sumLen g.dropLast :=
            sumLen_flatten _
          have h3 : sumLen (c0 :: cs0) = sumLen g + (c.length + sumLen cs) := by
            rw [← happ, sumLen_append, sumLen_cons]
          show sumLen (c :: cs) + g.dropLast.flatten.length + 1 = sumLen (c0 :: cs0)
          rw [sumLen_cons]
          omega
      · -- line kept whole; if the next chunk is the spacer it is dropped
        -- at the start of the next iteration
        have hlastf : allWS (g.getLastD []) = false := by
          revert hlast
          cases allWS (g.getLastD []) <;> simp
        rw [hlastf] at hsuffix
        simp only [Bool.not_false] at hsuffix
        have hcond : ¬(g ≠ [] ∧ allWS (g.getLastD []) = true) :=
          fun h => hlast h.2
        have hfne : g.flatten ≠ [] := by
          rw [hgt]
          simp only [List.flatten_cons]
          intro hcon
          exact hc0ne (List.append_eq_nil.mp hcon).1
        rcases goodChunks_cons_inv hsuffix with ⟨hceq, _, hcs'⟩ | ⟨hcne', hcw', hcs'⟩
        · -- spacer chunk: normalised away in the next iteration
          have hnorm : wrapGo width fuel true ([' '] :: cs) =
              wrapGo width fuel true cs :=
            wrapGo_drop_space width fuel cs (fun x xs' hxx => by
              rcases goodChunks_false_cons (hxx ▸ hcs') with ⟨hne'', hw'', _⟩
              exact allWS_word hne'' hw'')
          refine ⟨g.flatten, true, cs, ?_, hfne, ?_, ?_, hcs', ?_⟩
          · rw [hstep, if_neg hcond, if_pos hgne, hceq]
            simp only [decide_eq_true hgne, Bool.or_true,
              List.singleton_append]
            rw [hnorm]
          · have h2 : g.flatten.length = sumLen g := sumLen_flatten _
            have h4 := hfits hgne
            omega
          · rw [← happ, hceq]
            simp
          · have h2 : g.flatten.length = sumLen g := sumLen_flatten _
            have h3 : sumLen (c0 :: cs0) = sumLen g + (c.length + sumLen cs) := by
              rw [← happ, sumLen_append, sumLen_cons]
            have h5 : c.length = 1 := by rw [hceq]; rfl
            show sumLen cs + g.flatten.length + 1 = sumLen (c0 :: cs0)
            omega
        · -- word chunk: stays for the next iteration
          refine ⟨g.flatten, false, c :: cs, ?_, hfne, ?_, ?_,
            GoodChunks.word hcne' hcw' hcs', ?_⟩
          · rw [hstep, if_neg hcond, if_pos hgne]
            simp [decide_eq_true hgne]
          · have h2 : g.flatten.length = sumLen g := sumLen_flatten _
            have h4 := hfits hgne
            omega
          · rw [← happ]
            simp
          · have h2 : g.flatten.length = sumLen g := sumLen_flatten _
            have h3 : sumLen (c0 :: cs0) = sumLen g + (c.length + sumLen cs) := by
              rw [← happ, sumLen_append, sumLen_cons]
            show sumLen (c :: cs) + g.flatten.length + 0 = sumLen (c0 :: cs0)
            rw [sumLen_cons]
            omega

theorem getD_append_self (l1 l2 : List Char) (x d : Char) :
    (l1 ++ x :: l2).getD l1.length d = x := by
  simp [List.getD, List.getElem?_append_right (le_refl l1.length)]

theorem drop_prefix_cons (l1 l2 : List Char) (x : Char) :
    (l1 ++ x :: l2).drop (l1.length + 1) = l2 := by
  rw [show l1 ++ x :: l2 = (l1 ++ [x]) ++ l2 by simp]
  exact List.drop_left' (by simp)

theorem wrapGo_rejoin (width : Nat) (hw : 1 ≤ width) :
    ∀ (fuel : Nat) (chunks : List (List Char)) (emitted : Bool)
      (para : List Char) (pos : Nat),
      GoodChunks false chunks →
      sumLen chunks + 1 ≤ fuel →
      para.drop pos = chunks.flatten →
      rejoinGo para (wrapGo width fuel emitted chunks) pos = chunks.flatten := by
  intro fuel
  induction fuel with
  | zero => intro chunks _ _ _ _ hfuel _; omega
  | succ f ih =>
    intro chunks emitted para pos hg hfuel hdrop
    cases chunks with
    | nil => rfl
    | cons c0 cs0 =>
      obtain ⟨line, s, rest, heq, hlne, hlen, hflat, hgrest, hsum⟩ :=
        wrapGo_step width hw f emitted (c0 :: cs0) hg (by simp)
      rw [heq]
      have hlpos : 1 ≤ line.length := List.length_pos.mpr hlne
      have hdl : (para.drop pos).length = para.length - pos :=
        List.length_drop pos para
      cases s with
      | true =>
        simp only [if_pos rfl] at hflat hsum
        have hflat' : para.drop pos = line ++ ' ' :: rest.flatten := by
          rw [hdrop, hflat]
          simp
        have hcond : pos + line.length < para.length ∧
            para.getD (pos + line.length) ' ' = ' ' := by
          constructor
          · have : (para.drop pos).length = line.length + 1 + rest.flatten.length := by
              rw [hflat']
              simp
              omega
            omega
          · rw [← getD_drop, hflat', getD_append_self]
        show rejoinGo para (line :: wrapGo width f true rest) pos = _
        rw [rejoinGo]
        rw [if_pos hcond]
        have hdrop2 : para.drop (pos + line.length + 1) = rest.flatten := by
          have h1 : para.drop (pos + line.length + 1) =
              (para.drop pos).drop (line.length + 1) := by
            rw [List.drop_drop, Nat.add_assoc]
          rw [h1, hflat', drop_prefix_cons]
        rw [ih rest true para (pos + line.length + 1) hgrest (by omega) hdrop2]
        rw [hflat]
        simp
      | false =>
        simp only [Bool.false_eq_true, if_false] at hflat hsum
        have hflat' : para.drop pos = line ++ rest.flatten := by
          rw [hdrop, hflat]
          simp
        have hcond : ¬(pos + line.length < para.length ∧
            para.getD (pos + line.length) ' ' = ' ') := by
          cases hre : rest with
          | nil =>
            intro hc
            have : (para.drop pos).length = line.length := by
              rw [hflat', hre]
              simp
            omega
          | cons w t =>
            obtain ⟨hwne, hww, _⟩ := goodChunks_false_cons (hre ▸ hgrest)
            cases hwc : w with
            | nil => exact absurd hwc hwne
            | cons ch w' =>
              have hch : pyWS ch = false := hww ch (by rw [hwc]; simp)
              have hchne : ch ≠ ' ' := by
                intro hcc
                rw [hcc] at hch
                simp [pyWS] at hch
              intro hc
              have : para.getD (pos + line.length) ' ' = ch := by
                rw [← getD_drop, hflat', hre, hwc]
                simp only [List.flatten_cons, List.cons_append,
                  List.append_assoc]
                exact getD_append_self line _ ch ' '
              exact hchne (this ▸ hc.2)
        show rejoinGo para (line :: wrapGo width f true rest) pos = _
        rw [rejoinGo]
        rw [if_neg hcond]
        have hdrop2 : para.drop (pos + line.length) = rest.flatten := by
          have h1 : para.drop (pos + line.length) =
              (para.drop pos).drop line.length := by
            rw [List.drop_drop]
          rw [h1, hflat', List.drop_left]
        rw [ih rest true para (pos + line.length) hgrest (by omega) hdrop2]
        rw [hflat]
        simp

theorem goodChar_pyWS {c : Char} (h : goodChar c = true) (hw : pyWS c = true) :
    c = ' ' := by
  simp only [pyWS, Bool.or_eq_true, decide_eq_true_eq] at hw
  rcases hw with ((((h1 | h1) | h1) | h1) | h1) | h1
  · exact h1
  all_goals (subst h1; exact absurd h (by decide))

theorem expandTabsGo_id : ∀ (p : List Char), (∀ c ∈ p, goodChar c = true) →
    ∀ col, expandTabsGo col p = p
  | [], _, _ => rfl
  | c :: cs, h, col => by
    have hc : goodChar c = true := h c (List.mem_cons_self c cs)
    have hct : c ≠ '\t' := fun he => by subst he; exact absurd hc (by decide)
    have ih := expandTabsGo_id cs (fun x hx => h x (List.mem_cons_of_mem c hx))
    simp only [expandTabsGo, if_neg hct]
    by_cases hnl : c = '\n' ∨ c = '\r'
    · rw [if_pos hnl, ih]
    · rw [if_neg hnl, ih]

theorem mungeWS_id (p : List Char) (h : ∀ c ∈ p, goodChar c = true) :
    mungeWS p = p := by
  unfold mungeWS
  rw [expandTabsGo_id p h 0]
  have h1 : ∀ c ∈ p, (if pyWS c then ' ' else c) = id c := by
    intro c hc
    by_cases hw : pyWS c = true
    · rw [if_pos hw, goodChar_pyWS (h c hc) hw]; rfl
    · rw [if_neg hw]; rfl
  rw [List.map_congr_left h1, List.map_id]

theorem splitChunks_cons (c : Char) (cs : List Char) :
    splitChunks (c :: cs) =
      match splitChunks cs with
      | [] => [[c]]
      | [] :: rest => [c] :: [] :: rest
      | (d :: ds) :: rest =>
        if pyWS c = pyWS d then (c :: d :: ds) :: rest
        else [c] :: (d :: ds) :: rest := rfl

theorem splitChunks_ne_nil (s : List Char) : ∀ ch ∈ splitChunks s, ch ≠ [] := by
  induction s with
  | nil => intro ch hch; simp [splitChunks] at hch
  | cons c cs ih =>
    intro ch hch
    cases hsc : splitChunks cs with
    | nil =>
      rw [hsc] at ih
      simp only [splitChunks, hsc] at hch
      simp only [List.mem_singleton] at hch
      subst hch; simp
    | cons d rest =>
      rw [hsc] at ih
      cases d with
      | nil => exact absurd rfl (ih [] (List.mem_cons_self _ _))
      | cons e es =>
        simp only [splitChunks, hsc] at hch
        by_cases hp : pyWS c = pyWS e
        · rw [if_pos hp] at hch
          rcases List.mem_cons.mp hch with rfl | hm
          · simp
          · exact ih _ (List.mem_cons_of_mem _ hm)
        · rw [if_neg hp] at hch
          rcases List.mem_cons.mp hch with rfl | hm
          · simp
          · exact ih _ hm

theorem splitChunks_cons_ex (c : Char) (cs : List Char) :
    ∃ t rest, splitChunks (c :: cs) = (c :: t) :: rest := by
  cases hsc : splitChunks cs with
  | nil => exact ⟨[], [], by simp [splitChunks, hsc]⟩
  | cons d rest =>
    cases d with
    | nil => exact ⟨[], [] :: rest, by simp [splitChunks, hsc]⟩
    | cons e es =>
      by_cases hp : pyWS c = pyWS e
      · refine ⟨e :: es, rest, ?_⟩
        simp only [splitChunks, hsc]
        rw [if_pos hp]
      · refine ⟨[], (e :: es) :: rest, ?_⟩
        simp only [splitChunks, hsc]
        rw [if_neg hp]

theorem splitChunks_flatten (s : List Char) : (splitChunks s).flatten = s := by
  induction s with
  | nil => rfl
  | cons c cs ih =>
    cases hsc : splitChunks cs with
    | nil =>
      rw [hsc] at ih
      simp only [List.flatten_nil] at ih
      simp only [splitChunks, hsc, List.flatten_cons, List.flatten_nil,
        List.append_nil, List.singleton_append]
      rw [← ih]
    | cons d rest =>
      rw [hsc] at ih
      cases d with
      | nil =>
        simp only [splitChunks, hsc, List.flatten_cons] at ih ⊢
        simp only [List.nil_append, List.singleton_append] at ih ⊢
        rw [ih]
      | cons e es =>
        by_cases hp : pyWS c = pyWS e
        · simp only [splitChunks, hsc]
          rw [if_pos hp]
          simp only [List.flatten_cons] at ih ⊢
          rw [List.cons_append, ih]
        · simp only [splitChunks, hsc]
          rw [if_neg hp]
          simp only [List.flatten_cons] at ih ⊢
          rw [List.singleton_append, ih]

theorem nds_tail {c : Char} {cs : List Char}
    (h : noDoubleSpace (c :: cs) = true) : noDoubleSpace cs = true := by
  cases cs with
  | nil => rfl
  | cons d t =>
    simp only [noDoubleSpace, Bool.and_eq_true] at h
    exact h.2

theorem nds_head {cs : List Char} (h : noDoubleSpace (' ' :: cs) = true) :
    cs.head? ≠ some ' ' := by
  cases cs with
  | nil => simp
  | cons d t =>
    intro hd
    simp only [List.head?_cons, Option.some.injEq] at hd
    subst hd
    have hf : noDoubleSpace (' ' :: ' ' :: t) = false := by
      simp [noDoubleSpace]
    rw [hf] at h
    exact Bool.noConfusion h

theorem goodChunks_weaken {l : List (List Char)} (h : GoodChunks false l)
    (b : Bool) : GoodChunks b l := by
  cases h with
  | nil => exact GoodChunks.nil
  | word hne hch hrest => exact GoodChunks.word hne hch hrest

theorem splitChunks_good (p : List Char) :
    (∀ c ∈ p, goodChar c = true) → noDoubleSpace p = true →
    GoodChunks true (splitChunks p) ∧
      (p.head? ≠ some ' ' → GoodChunks false (splitChunks p)) := by
  induction p with
  | nil => intro _ _; exact ⟨GoodChunks.nil, fun _ => GoodChunks.nil⟩
  | cons c cs ih =>
    intro hgc hnds
    have hgcs : ∀ x ∈ cs, goodChar x = true :=
      fun x hx => hgc x (List.mem_cons_of_mem c hx)
    have ihs := ih hgcs (nds_tail hnds)
    by_cases hsp : c = ' '
    · subst hsp
      have hcsh : cs.head? ≠ some ' ' := nds_head hnds
      have heq : splitChunks (' ' :: cs) = [' '] :: splitChunks cs := by
        cases cs with
        | nil => rfl
        | cons e cs' =>
          obtain ⟨t, rest, hx⟩ := splitChunks_cons_ex e cs'
          have hene : e ≠ ' ' := by
            intro he; exact hcsh (by rw [he]; rfl)
          have hpe : pyWS e = false := by
            cases hpw : pyWS e
            · rfl
            · exact absurd
                (goodChar_pyWS (hgcs e (List.mem_cons_self e cs')) hpw) hene
          rw [splitChunks_cons ' ' (e :: cs'), hx]
          show (if pyWS ' ' = pyWS e then (' ' :: e :: t) :: rest
              else [' '] :: (e :: t) :: rest) = [' '] :: (e :: t) :: rest
          rw [if_neg (by rw [hpe]; decide)]
      rw [heq]
      exact ⟨GoodChunks.space (ihs.2 hcsh), fun hh => absurd rfl hh⟩
    · have hpc : pyWS c = false := by
        cases hpw : pyWS c
        · rfl
        · exact absurd (goodChar_pyWS (hgc c (List.mem_cons_self c cs)) hpw) hsp
      have key : GoodChunks false (splitChunks (c :: cs)) := by
        cases hsc : splitChunks cs with
        | nil =>
          simp only [splitChunks, hsc]
          refine GoodChunks.word (by simp) ?_ GoodChunks.nil
          intro x hx
          simp only [List.mem_singleton] at hx
          subst hx; exact hpc
        | cons d rest =>
          cases d with
          | nil =>
            exact absurd rfl
              (splitChunks_ne_nil cs [] (hsc ▸ List.mem_cons_self _ _))
          | cons e es =>
            have ihg : GoodChunks true ((e :: es) :: rest) := hsc ▸ ihs.1
            simp only [splitChunks, hsc]
            by_cases hp : pyWS c = pyWS e
            · rw [if_pos hp]
              cases ihg with
              | word hne hch hrest =>
                refine GoodChunks.word (by simp) ?_ hrest
                intro x hx
                rcases List.mem_cons.mp hx with rfl | hx2
                · exact hpc
                · exact hch x hx2
              | space hrest =>
                rw [hpc] at hp
                exact absurd hp (by decide)
            · rw [if_neg hp]
              refine GoodChunks.word (by simp) ?_ ihg
              intro x hx
              simp only [List.mem_singleton] at hx
              subst hx; exact hpc
      exact ⟨goodChunks_weaken key true, fun _ => key⟩

theorem cleanParaC1_parts {p : List Char} (h : cleanParaC1 p = true) :
    (∀ c ∈ p, goodChar c = true) ∧ noDoubleSpace p = true ∧
      p.head? ≠ some ' ' := by
  simp only [cleanParaC1, Bool.and_eq_true, decide_eq_true_eq,
    List.all_eq_true] at h
  exact ⟨h.1.1, h.1.2, h.2⟩

theorem textwrap_rejoin_clean (width : Nat) (hw : 1 ≤ width) (p : List Char)
    (hc : cleanParaC1 p = true) :
    rejoinGo p (textwrapWrap width p) 0 = p := by
  obtain ⟨hgc, hnds, hhd⟩ := cleanParaC1_parts hc
  have hm : mungeWS p = p := mungeWS_id p hgc
  have hgood : GoodChunks false (splitChunks p) := (splitChunks_good p hgc hnds).2 hhd
  have hfl : (splitChunks p).flatten = p := splitChunks_flatten p
  unfold textwrapWrap
  rw [hm]
  rw [wrapGo_rejoin width hw _ _ _ _ _ hgood (le_refl _)
    (by rw [List.drop_zero, hfl])]
  exact hfl

theorem wrapGo_lines_le (width : Nat) (hw : 1 ≤ width) :
    ∀ (fuel : Nat) (chunks : List (List Char)) (emitted : Bool),
      GoodChunks false chunks → sumLen chunks + 1 ≤ fuel →
      ∀ l ∈ wrapGo width fuel emitted chunks, l.length ≤ width := by
  intro fuel
  induction fuel with
  | zero => intro chunks emitted _ hfuel l hl; omega
  | succ f ih =>
    intro chunks emitted hg hfuel l hl
    cases chunks with
    | nil =>
      simp only [wrapGo] at hl
      exact absurd hl (by simp)
    | cons c0 cs0 =>
      obtain ⟨line, s, rest, heq, hlne, hlen, hflat, hgrest, hsum⟩ :=
        wrapGo_step width hw f emitted (c0 :: cs0) hg (by simp)
      rw [heq] at hl
      rcases List.mem_cons.mp hl with rfl | hm
      · exact hlen
      · have hlpos : 1 ≤ line.length := List.length_pos.mpr hlne
        have hrest : sumLen rest + 1 ≤ f := by
          cases s with
          | true => simp at hsum; omega
          | false => simp at hsum; omega
        exact ih rest true hgrest hrest l hm

theorem wrapParaF_rejoin_clean (width : Nat) (hw : 1 ≤ width) (p : List Char)
    (hc : cleanParaC1 p = true) :
    rejoinGo p (wrapParaF width p) 0 = p := by
  have hrt := textwrap_rejoin_clean width hw p hc
  unfold wrapParaF
  cases htw : textwrapWrap width p with
  | nil =>
    rw [htw] at hrt
    have hp : p = [] := by rw [← hrt]; rfl
    subst hp; rfl
  | cons a t =>
    rw [htw] at hrt
    exact hrt

theorem wrapParaF_lines_le (width : Nat) (hw : 1 ≤ width) (p : List Char)
    (hc : cleanParaC1 p = true) :
    ∀ l ∈ wrapParaF width p, l.length ≤ width := by
  obtain ⟨hgc, hnds, hhd⟩ := cleanParaC1_parts hc
  have hm : mungeWS p = p := mungeWS_id p hgc
  have hgood := (splitChunks_good p hgc hnds).2 hhd
  intro l hl
  have hmem : l = [] ∨ l ∈ textwrapWrap width p := by
    unfold wrapParaF at hl
    cases htw : textwrapWrap width p with
    | nil =>
      rw [htw] at hl
      simp only [List.mem_singleton] at hl
      exact Or.inl hl
    | cons a t =>
      rw [htw] at hl
      have hl2 : l ∈ a :: t := hl
      exact Or.inr (htw ▸ hl2)
  rcases hmem with rfl | hmem
  · simp
  · unfold textwrapWrap at hmem
    have hgood2 : GoodChunks false (splitChunks (mungeWS p)) := by
      rw [hm]; exact hgood
    exact wrapGo_lines_le width hw _ _ false hgood2 (le_refl _) l hmem

theorem splitNL_cons (c : Char) (cs : List Char) :
    splitNL (c :: cs) =
      if c = '\n' then [] :: splitNL cs
      else
        match splitNL cs with
        | [] => [[c]]
        | p :: ps => (c :: p) :: ps := rfl

theorem splitNL_ne_nil (t : List Char) : splitNL t ≠ [] := by
  cases t with
  | nil => simp [splitNL]
  | cons c cs =>
    simp only [splitNL]
    by_cases hc : c = '\n'
    · rw [if_pos hc]; simp
    · rw [if_neg hc]
      cases splitNL cs <;> simp

theorem joinNL_cons₂ (p q : List Char) (ps : List (List Char)) :
    joinNL (p :: q :: ps) = p ++ '\n' :: joinNL (q :: ps) := rfl

theorem joinNL_splitNL (t : List Char) : joinNL (splitNL t) = t := by
  induction t with
  | nil => rfl
  | cons c cs ih =>
    by_cases hc : c = '\n'
    · subst hc
      rw [splitNL_cons, if_pos rfl]
      cases hs : splitNL cs with
      | nil => exact absurd hs (splitNL_ne_nil cs)
      | cons p ps =>
        rw [hs] at ih
        rw [joinNL_cons₂, ih]
        rfl
    · rw [splitNL_cons, if_neg hc]
      cases hs : splitNL cs with
      | nil => exact absurd hs (splitNL_ne_nil cs)
      | cons p ps =>
        rw [hs] at ih
        cases ps with
        | nil =>
          show c :: p = c :: cs
          rw [show joinNL [p] = p from rfl] at ih
          rw [ih]
        | cons q qs =>
          rw [joinNL_cons₂]
          rw [joinNL_cons₂] at ih
          rw [List.cons_append, ih]

theorem buildParas_lines (cpl : Nat) :
    ∀ (ps : List (List Char)) (li pstart : Nat),
      (buildParas cpl ps li pstart).1 = ps.flatMap (fun p => wrapParaF cpl p) := by
  intro ps
  induction ps with
  | nil => intro li pstart; rfl
  | cons p ps ih =>
    intro li pstart
    by_cases hp : p = []
    · subst hp
      simp only [buildParas, if_pos rfl]
      cases hb : buildParas cpl ps (li + 1) (pstart + 1) with
      | mk ls es =>
        have := ih (li + 1) (pstart + 1)
        rw [hb] at this
        simp only [List.flatMap_cons]
        rw [← this]
        rfl
    · simp only [buildParas, if_neg hp]
      cases hb : buildParas cpl ps (li + (wrapParaF cpl p).length)
          (pstart + p.length + 1) with
      | mk ls es =>
        have := ih (li + (wrapParaF cpl p).length) (pstart + p.length + 1)
        rw [hb] at this
        simp only [List.flatMap_cons]
        rw [← this]

/-- Claim C1 (amended): for clean text — printable ASCII, single spaces,
paragraphs not beginning with a space — and `wrap_width ≥ 1`, re-joining
the wrapped lines (reinserting newlines at paragraph boundaries and the
wrap-consumed spaces) reconstructs the text exactly, and every visual
line has length at most `wrap_width`. -/
theorem wrap_roundtrip_clean (cpl : Nat) (text : List Char)
    (hw : 1 ≤ cpl) (hc : cleanTextC1 text = true) :
    rejoinText cpl text = text ∧
      ∀ l ∈ wrapLines cpl text, l.length ≤ cpl := by
  unfold cleanTextC1 at hc
  have hcp : ∀ p ∈ splitNL text, cleanParaC1 p = true := List.all_eq_true.mp hc
  constructor
  · unfold rejoinText
    have h1 : ∀ p ∈ splitNL text, rejoinGo p (wrapParaF cpl p) 0 = id p :=
      fun p hp => wrapParaF_rejoin_clean cpl hw p (hcp p hp)
    rw [List.map_congr_left h1, List.map_id, joinNL_splitNL]
  · intro l hl
    have hmem : l = [] ∨ l ∈ (buildParas cpl (splitNL text) 0 0).1 := by
      unfold wrapLines at hl
      cases hb : (buildParas cpl (splitNL text) 0 0).1 with
      | nil =>
        rw [hb] at hl
        simp only [List.mem_singleton] at hl
        exact Or.inl hl
      | cons a t =>
        rw [hb] at hl
        have hl2 : l ∈ a :: t := hl
        exact Or.inr (hb ▸ hl2)
    rcases hmem with rfl | hmem
    · simp
    · rw [buildParas_lines] at hmem
      obtain ⟨p, hp, hlp⟩ := List.mem_flatMap.mp hmem
      exact wrapParaF_lines_le cpl hw p (hcp p hp) l hlp

/-- Claim C1 counterexample: for raw text with two adjacent spaces the
round-trip fails — the wrap engine consumes the whole whitespace run at
a wrap point but only one space is accounted for, so re-joining loses a
space. -/
theorem rejoin_drops_second_space :
    rejoinText 3 ['a', ' ', ' ', 'b'] ≠ ['a', ' ', ' ', 'b'] := by decide

/-- Claim C1 witness: the round-trip at `wrap_width = 5` on the clean
text `"hello world"`. -/
theorem wrap_roundtrip_clean_witness :
    rejoinText 5 "hello world".toList = "hello world".toList ∧
      ∀ l ∈ wrapLines 5 "hello world".toList, l.length ≤ 5 :=
  wrap_roundtrip_clean 5 "hello world".toList (by decide) (by decide)


theorem rejoinGo_cons (p l : List Char) (ls : List (List Char)) (pc : Nat) :
    rejoinGo p (l :: ls) pc =
      if pc + l.length < p.length ∧ p.getD (pc + l.length) ' ' = ' ' then
        l ++ ' ' :: rejoinGo p ls (pc + l.length + 1)
      else l ++ rejoinGo p ls (pc + l.length) := rfl

theorem paraWalk_cons (p : List Char) (B : Nat) (l : List Char)
    (ws : List (List Char)) (lb pc : Nat) :
    paraWalk p B (l :: ws) lb pc =
      if pc + l.length < p.length ∧ p.getD (pc + l.length) ' ' = ' ' then
        ((List.range l.length).map (fun col => (B + pc + col, lb, col))) ++
          (B + (pc + l.length), lb, l.length) ::
            paraWalk p B ws (lb + 1) (pc + l.length + 1)
      else
        ((List.range l.length).map (fun col => (B + pc + col, lb, col))) ++
          paraWalk p B ws (lb + 1) (pc + l.length) := rfl

theorem idealMap_cons (p l : List Char) (ls : List (List Char)) (lb pc j : Nat) :
    idealMap p (l :: ls) lb pc j =
      if j < pc + l.length then some (lb, j - pc)
      else if pc + l.length < p.length ∧ p.getD (pc + l.length) ' ' = ' ' then
        if j = pc + l.length then some (lb, l.length)
        else idealMap p ls (lb + 1) (pc + l.length + 1) j
      else idealMap p ls (lb + 1) (pc + l.length) j := rfl

theorem posWalkPara_cons (p : List Char) (T tL tC : Nat) (l : List Char)
    (ws : List (List Char)) (lb pc : Nat) :
    posWalkPara p T tL tC (l :: ws) lb pc =
      if lb = tL then some (T + pc + min tC l.length)
      else posWalkPara p T tL tC ws (lb + 1)
        (if pc + l.length < p.length ∧ p.getD (pc + l.length) ' ' = ' '
          then pc + l.length + 1 else pc + l.length) := rfl

theorem sched_nil (p : List Char) (pc : Nat)
    (hs : rejoinGo p [] pc = p.drop pc) : p.length ≤ pc := by
  have h := congrArg List.length hs
  simp only [rejoinGo, List.length_nil, List.length_drop] at h
  omega

theorem sched_bound (p l : List Char) (ls : List (List Char)) (pc : Nat)
    (hlne : l ≠ []) (hs : rejoinGo p (l :: ls) pc = p.drop pc) :
    pc + l.length ≤ p.length := by
  have hl1 : 1 ≤ l.length := List.length_pos.mpr hlne
  rw [rejoinGo_cons] at hs
  by_cases hcond : pc + l.length < p.length ∧ p.getD (pc + l.length) ' ' = ' '
  · omega
  · rw [if_neg hcond] at hs
    have h := congrArg List.length hs
    simp only [List.length_append, List.length_drop] at h
    omega

theorem sched_tail_pos (p l : List Char) (ls : List (List Char)) (pc : Nat)
    (hcond : pc + l.length < p.length ∧ p.getD (pc + l.length) ' ' = ' ')
    (hs : rejoinGo p (l :: ls) pc = p.drop pc) :
    rejoinGo p ls (pc + l.length + 1) = p.drop (pc + l.length + 1) := by
  rw [rejoinGo_cons, if_pos hcond] at hs
  have h2 : p.drop (pc + l.length) = ' ' :: rejoinGo p ls (pc + l.length + 1) := by
    rw [← List.drop_drop, ← hs, List.drop_left]
  rw [← List.drop_drop, h2]
  rfl

theorem sched_tail_neg (p l : List Char) (ls : List (List Char)) (pc : Nat)
    (hcond : ¬(pc + l.length < p.length ∧ p.getD (pc + l.length) ' ' = ' '))
    (hs : rejoinGo p (l :: ls) pc = p.drop pc) :
    rejoinGo p ls (pc + l.length) = p.drop (pc + l.length) := by
  rw [rejoinGo_cons, if_neg hcond] at hs
  rw [← List.drop_drop, ← hs, List.drop_left]

theorem getLast?_getD (p : List Char) (h : p ≠ []) :
    p.getLast? = some (p.getD (p.length - 1) ' ') := by
  have hlt : p.length - 1 < p.length := by
    have := List.length_pos.mpr h
    omega
  rw [List.getLast?_eq_getElem?, List.getElem?_eq_getElem hlt]
  simp [List.getD, List.getElem?_eq_getElem hlt]

theorem sched_last (p l : List Char) (pc : Nat) (hlne : l ≠ [])
    (hclean : p.getLast? ≠ some ' ')
    (hs : rejoinGo p [l] pc = p.drop pc) :
    pc + l.length = p.length ∧
      ¬(pc + l.length < p.length ∧ p.getD (pc + l.length) ' ' = ' ') := by
  have hl1 : 1 ≤ l.length := List.length_pos.mpr hlne
  by_cases hcond : pc + l.length < p.length ∧ p.getD (pc + l.length) ' ' = ' '
  · exfalso
    rw [rejoinGo_cons, if_pos hcond] at hs
    have h := congrArg List.length hs
    simp only [List.length_append, List.length_cons, List.length_drop,
      rejoinGo, List.length_nil] at h
    have hple : p ≠ [] := by
      intro he; rw [he] at hcond; exact absurd hcond.1 (by simp)
    have hlast : p.getLast? = some (p.getD (p.length - 1) ' ') :=
      getLast?_getD p hple
    have hidx : p.length - 1 = pc + l.length := by omega
    rw [hidx, hcond.2] at hlast
    exact hclean hlast
  · refine ⟨?_, hcond⟩
    rw [rejoinGo_cons, if_neg hcond] at hs
    have h := congrArg List.length hs
    simp only [List.length_append, List.length_drop, rejoinGo,
      List.length_nil] at h
    omega

theorem paraWalk_keys_lb (p : List Char) (B : Nat) :
    ∀ (ws : List (List Char)) (lb pc : Nat),
      ∀ e ∈ paraWalk p B ws lb pc, B + pc ≤ e.1 := by
  intro ws
  induction ws with
  | nil => intro lb pc e he; exact absurd he (by simp [paraWalk])
  | cons l ls ih =>
    intro lb pc e he
    rw [paraWalk_cons] at he
    by_cases hcond : pc + l.length < p.length ∧ p.getD (pc + l.length) ' ' = ' '
    · rw [if_pos hcond] at he
      rcases List.mem_append.mp he with hcol | hrest
      · obtain ⟨col, _, rfl⟩ := List.mem_map.mp hcol
        simp only []
        omega
      · rcases List.mem_cons.mp hrest with rfl | hrec
        · simp only []
          omega
        · have := ih (lb + 1) (pc + l.length + 1) e hrec
          omega
    · rw [if_neg hcond] at he
      rcases List.mem_append.mp he with hcol | hrec
      · obtain ⟨col, _, rfl⟩ := List.mem_map.mp hcol
        simp only []
        omega
      · have := ih (lb + 1) (pc + l.length) e hrec
        omega

theorem paraWalk_keys_ub (p : List Char) (B : Nat) :
    ∀ (ws : List (List Char)) (lb pc : Nat),
      rejoinGo p ws pc = p.drop pc → (∀ l ∈ ws, l ≠ []) →
      ∀ e ∈ paraWalk p B ws lb pc, e.1 < B + p.length := by
  intro ws
  induction ws with
  | nil => intro lb pc _ _ e he; exact absurd he (by simp [paraWalk])
  | cons l ls ih =>
    intro lb pc hs hall e he
    have hb : pc + l.length ≤ p.length :=
      sched_bound p l ls pc (hall l (List.mem_cons_self _ _)) hs
    rw [paraWalk_cons] at he
    by_cases hcond : pc + l.length < p.length ∧ p.getD (pc + l.length) ' ' = ' '
    · rw [if_pos hcond] at he
      rcases List.mem_append.mp he with hcol | hrest
      · obtain ⟨col, hcr, rfl⟩ := List.mem_map.mp hcol
        simp only [List.mem_range] at hcr
        simp only []
        omega
      · rcases List.mem_cons.mp hrest with rfl | hrec
        · simp only []
          omega
        · exact ih (lb + 1) (pc + l.length + 1)
            (sched_tail_pos p l ls pc hcond hs)
            (fun x hx => hall x (List.mem_cons_of_mem _ hx)) e hrec
    · rw [if_neg hcond] at he
      rcases List.mem_append.mp he with hcol | hrec
      · obtain ⟨col, hcr, rfl⟩ := List.mem_map.mp hcol
        simp only [List.mem_range] at hcr
        simp only []
        omega
      · exact ih (lb + 1) (pc + l.length)
          (sched_tail_neg p l ls pc hcond hs)
          (fun x hx => hall x (List.mem_cons_of_mem _ hx)) e hrec

theorem lookupLast_colEntries (B pc lb : Nat) :
    ∀ (len j : Nat), j < len →
      lookupLast ((List.range len).map (fun col => (B + pc + col, lb, col)))
        (B + pc + j) = some (lb, j) := by
  intro len
  induction len with
  | zero => intro j hj; omega
  | succ n ih =>
    intro j hj
    rw [List.range_succ, List.map_append, lookupLast_append]
    by_cases hjn : j = n
    · subst hjn
      show (match lookupLast [(B + pc + j, lb, j)] (B + pc + j) with
        | some v => some v
        | none => _) = some (lb, j)
      show (match (if B + pc + j = B + pc + j then
        some ((lb, j) : Nat × Nat) else none) with
        | some v => some v
        | none => _) = some (lb, j)
      rw [if_pos rfl]
    · have hlt : j < n := by omega
      show (match lookupLast [(B + pc + n, lb, n)] (B + pc + j) with
        | some v => some v
        | none => lookupLast _ (B + pc + j)) = some (lb, j)
      show (match (if B + pc + n = B + pc + j then
        some ((lb, n) : Nat × Nat) else none) with
        | some v => some v
        | none => lookupLast _ (B + pc + j)) = some (lb, j)
      rw [if_neg (by omega)]
      exact ih j hlt

theorem colEntries_keys (B pc lb len : Nat) :
    ∀ e ∈ (List.range len).map (fun col => ((B + pc + col, lb, col) :
        Nat × Nat × Nat)), B + pc ≤ e.1 ∧ e.1 < B + pc + len := by
  intro e he
  obtain ⟨col, hcr, rfl⟩ := List.mem_map.mp he
  simp only [List.mem_range] at hcr
  constructor <;> [skip; skip] <;> simp only [] <;> omega

theorem lookupLast_skip (a b : List (Nat × Nat × Nat)) (k : Nat)
    (h : lookupLast b k = none) : lookupLast (a ++ b) k = lookupLast a k := by
  rw [lookupLast_append, h]

theorem lookupLast_found (a b : List (Nat × Nat × Nat)) (k : Nat)
    (v : Nat × Nat) (h : lookupLast b k = some v) :
    lookupLast (a ++ b) k = some v := by
  rw [lookupLast_append, h]

theorem lookupLast_one (e : Nat × Nat × Nat) (k : Nat) :
    lookupLast [e] k = if e.1 = k then some e.2 else none := rfl

theorem paraWalk_lookup (p : List Char) (B : Nat) :
    ∀ (ws : List (List Char)) (lb pc j : Nat), pc ≤ j →
      lookupLast (paraWalk p B ws lb pc) (B + j) = idealMap p ws lb pc j := by
  intro ws
  induction ws with
  | nil => intro lb pc j _; rfl
  | cons l ls ih =>
    intro lb pc j hpcj
    rw [paraWalk_cons, idealMap_cons]
    by_cases hin : j < pc + l.length
    · rw [if_pos hin]
      have hcol : lookupLast ((List.range l.length).map
          (fun col => (B + pc + col, lb, col))) (B + j) = some (lb, j - pc) := by
        have := lookupLast_colEntries B pc lb l.length (j - pc) (by omega)
        rw [show B + pc + (j - pc) = B + j from by omega] at this
        exact this
      by_cases hcond : pc + l.length < p.length ∧ p.getD (pc + l.length) ' ' = ' '
      · rw [if_pos hcond]
        have hrest : lookupLast ((B + (pc + l.length), lb, l.length) ::
            paraWalk p B ls (lb + 1) (pc + l.length + 1)) (B + j) = none := by
          apply lookupLast_none
          intro e he
          rcases List.mem_cons.mp he with rfl | hrec
          · simp only []; omega
          · have := paraWalk_keys_lb p B ls (lb + 1) (pc + l.length + 1) e hrec
            omega
        rw [lookupLast_skip _ _ _ hrest, hcol]
      · rw [if_neg hcond]
        have hrest : lookupLast (paraWalk p B ls (lb + 1) (pc + l.length))
            (B + j) = none := by
          apply lookupLast_none
          intro e he
          have := paraWalk_keys_lb p B ls (lb + 1) (pc + l.length) e he
          omega
        rw [lookupLast_skip _ _ _ hrest, hcol]
    · rw [if_neg hin]
      have hcoln : lookupLast ((List.range l.length).map
          (fun col => ((B + pc + col, lb, col) : Nat × Nat × Nat)))
          (B + j) = none := by
        apply lookupLast_none
        intro e he
        have := colEntries_keys B pc lb l.length e he
        omega
      by_cases hcond : pc + l.length < p.length ∧ p.getD (pc + l.length) ' ' = ' '
      · rw [if_pos hcond, if_pos hcond]
        by_cases hj1 : j = pc + l.length
        · rw [if_pos hj1]
          have hrec : lookupLast (paraWalk p B ls (lb + 1) (pc + l.length + 1))
              (B + j) = none := by
            apply lookupLast_none
            intro e he
            have := paraWalk_keys_lb p B ls (lb + 1) (pc + l.length + 1) e he
            omega
          have h1 : lookupLast ((B + (pc + l.length), lb, l.length) ::
              paraWalk p B ls (lb + 1) (pc + l.length + 1)) (B + j) =
              some (lb, l.length) := by
            rw [show ((B + (pc + l.length), lb, l.length) ::
                paraWalk p B ls (lb + 1) (pc + l.length + 1)) =
                [(B + (pc + l.length), lb, l.length)] ++
                paraWalk p B ls (lb + 1) (pc + l.length + 1) from rfl,
              lookupLast_skip _ _ _ hrec, lookupLast_one]
            rw [if_pos (show B + (pc + l.length) = B + j from by omega)]
          exact lookupLast_found _ _ _ _ h1
        · rw [if_neg hj1]
          have hstep := ih (lb + 1) (pc + l.length + 1) j (by omega)
          rcases hI : idealMap p ls (lb + 1) (pc + l.length + 1) j with _ | v
          · rw [hI] at hstep
            have h2 : lookupLast ((B + (pc + l.length), lb, l.length) ::
                paraWalk p B ls (lb + 1) (pc + l.length + 1)) (B + j) =
                none := by
              rw [show ((B + (pc + l.length), lb, l.length) ::
                  paraWalk p B ls (lb + 1) (pc + l.length + 1)) =
                  [(B + (pc + l.length), lb, l.length)] ++
                  paraWalk p B ls (lb + 1) (pc + l.length + 1) from rfl,
                lookupLast_skip _ _ _ hstep, lookupLast_one]
              rw [if_neg (show ¬(B + (pc + l.length) = B + j) from by omega)]
            rw [lookupLast_skip _ _ _ h2, hcoln]
          · rw [hI] at hstep
            have h2 : lookupLast ((B + (pc + l.length), lb, l.length) ::
                paraWalk p B ls (lb + 1) (pc + l.length + 1)) (B + j) =
                some v := by
              rw [show ((B + (pc + l.length), lb, l.length) ::
                  paraWalk p B ls (lb + 1) (pc + l.length + 1)) =
                  [(B + (pc + l.length), lb, l.length)] ++
                  paraWalk p B ls (lb + 1) (pc + l.length + 1) from rfl]
              exact lookupLast_found _ _ _ _ hstep
            exact lookupLast_found _ _ _ _ h2
      · rw [if_neg hcond, if_neg hcond]
        have hstep := ih (lb + 1) (pc + l.length) j (by omega)
        rcases hI : idealMap p ls (lb + 1) (pc + l.length) j with _ | v
        · rw [hI] at hstep
          rw [lookupLast_skip _ _ _ hstep, hcoln]
        · rw [hI] at hstep
          exact lookupLast_found _ _ _ _ hstep

theorem idealMap_line_lb (p : List Char) :
    ∀ (ws : List (List Char)) (lb pc j L C : Nat),
      idealMap p ws lb pc j = some (L, C) → lb ≤ L := by
  intro ws
  induction ws with
  | nil => intro lb pc j L C h; exact absurd h (by simp [idealMap])
  | cons l ls ih =>
    intro lb pc j L C h
    rw [idealMap_cons] at h
    by_cases hin : j < pc + l.length
    · rw [if_pos hin] at h
      simp only [Option.some.injEq, Prod.mk.injEq] at h
      omega
    · rw [if_neg hin] at h
      by_cases hcond : pc + l.length < p.length ∧ p.getD (pc + l.length) ' ' = ' '
      · rw [if_pos hcond] at h
        by_cases hj1 : j = pc + l.length
        · rw [if_pos hj1] at h
          simp only [Option.some.injEq, Prod.mk.injEq] at h
          omega
        · rw [if_neg hj1] at h
          have := ih (lb + 1) (pc + l.length + 1) j L C h
          omega
      · rw [if_neg hcond] at h
        have := ih (lb + 1) (pc + l.length) j L C h
        omega

theorem idealMap_line_ub (p : List Char) :
    ∀ (ws : List (List Char)) (lb pc j L C : Nat),
      idealMap p ws lb pc j = some (L, C) → L < lb + ws.length := by
  intro ws
  induction ws with
  | nil => intro lb pc j L C h; exact absurd h (by simp [idealMap])
  | cons l ls ih =>
    intro lb pc j L C h
    rw [idealMap_cons] at h
    simp only [List.length_cons]
    by_cases hin : j < pc + l.length
    · rw [if_pos hin] at h
      simp only [Option.some.injEq, Prod.mk.injEq] at h
      omega
    · rw [if_neg hin] at h
      by_cases hcond : pc + l.length < p.length ∧ p.getD (pc + l.length) ' ' = ' '
      · rw [if_pos hcond] at h
        by_cases hj1 : j = pc + l.length
        · rw [if_pos hj1] at h
          simp only [Option.some.injEq, Prod.mk.injEq] at h
          omega
        · rw [if_neg hj1] at h
          have := ih (lb + 1) (pc + l.length + 1) j L C h
          omega
      · rw [if_neg hcond] at h
        have := ih (lb + 1) (pc + l.length) j L C h
        omega

theorem idealMap_covers (p : List Char) :
    ∀ (ws : List (List Char)) (lb pc j : Nat),
      rejoinGo p ws pc = p.drop pc → (∀ l ∈ ws, l ≠ []) →
      pc ≤ j → j < p.length →
      ∃ v, idealMap p ws lb pc j = some v := by
  intro ws
  induction ws with
  | nil =>
    intro lb pc j hs _ hpcj hjp
    have := sched_nil p pc hs
    omega
  | cons l ls ih =>
    intro lb pc j hs hall hpcj hjp
    rw [idealMap_cons]
    by_cases hin : j < pc + l.length
    · rw [if_pos hin]; exact ⟨_, rfl⟩
    · rw [if_neg hin]
      by_cases hcond : pc + l.length < p.length ∧ p.getD (pc + l.length) ' ' = ' '
      · rw [if_pos hcond]
        by_cases hj1 : j = pc + l.length
        · rw [if_pos hj1]; exact ⟨_, rfl⟩
        · rw [if_neg hj1]
          exact ih (lb + 1) (pc + l.length + 1) j
            (sched_tail_pos p l ls pc hcond hs)
            (fun x hx => hall x (List.mem_cons_of_mem _ hx)) (by omega) hjp
      · rw [if_neg hcond]
        exact ih (lb + 1) (pc + l.length) j
          (sched_tail_neg p l ls pc hcond hs)
          (fun x hx => hall x (List.mem_cons_of_mem _ hx)) (by omega) hjp

theorem posWalkPara_ideal (p : List Char) (T : Nat) :
    ∀ (ws : List (List Char)) (lb pc j L C : Nat), pc ≤ j →
      idealMap p ws lb pc j = some (L, C) →
      posWalkPara p T L C ws lb pc = some (T + j) := by
  intro ws
  induction ws with
  | nil => intro lb pc j L C _ h; exact absurd h (by simp [idealMap])
  | cons l ls ih =>
    intro lb pc j L C hpcj h
    rw [idealMap_cons] at h
    rw [posWalkPara_cons]
    by_cases hin : j < pc + l.length
    · rw [if_pos hin] at h
      simp only [Option.some.injEq, Prod.mk.injEq] at h
      obtain ⟨hL, hC⟩ := h
      subst hL
      rw [if_pos rfl, ← hC, Nat.min_eq_left (by omega)]
      congr 1
      omega
    · rw [if_neg hin] at h
      by_cases hcond : pc + l.length < p.length ∧ p.getD (pc + l.length) ' ' = ' '
      · rw [if_pos hcond] at h
        by_cases hj1 : j = pc + l.length
        · rw [if_pos hj1] at h
          simp only [Option.some.injEq, Prod.mk.injEq] at h
          obtain ⟨hL, hC⟩ := h
          subst hL
          rw [if_pos rfl, ← hC, Nat.min_self]
          congr 1
          omega
        · rw [if_neg hj1] at h
          have hlb := idealMap_line_lb p ls (lb + 1) (pc + l.length + 1) j L C h
          rw [if_neg (by omega), if_pos hcond]
          exact ih (lb + 1) (pc + l.length + 1) j L C (by omega) h
      · rw [if_neg hcond] at h
        have hlb := idealMap_line_lb p ls (lb + 1) (pc + l.length) j L C h
        rw [if_neg (by omega), if_neg hcond]
        exact ih (lb + 1) (pc + l.length) j L C (by omega) h

theorem getLastD_indep : ∀ (ys : List (List Char)), ys ≠ [] →
    ∀ d d', ys.getLastD d = ys.getLastD d'
  | [], h, _, _ => absurd rfl h
  | [a], _, d, d' => rfl
  | a :: b :: t, _, d, d' => by
    show (b :: t).getLastD a = (b :: t).getLastD a
    rfl

theorem posWalkPara_end (p : List Char) (T : Nat)
    (hclean : p.getLast? ≠ some ' ') :
    ∀ (ws : List (List Char)) (lb pc : Nat), ws ≠ [] →
      (∀ l ∈ ws, l ≠ []) → rejoinGo p ws pc = p.drop pc →
      posWalkPara p T (lb + ws.length - 1) ((ws.getLastD []).length) ws lb pc =
        some (T + p.length) := by
  intro ws
  induction ws with
  | nil => intro lb pc h; exact absurd rfl h
  | cons l ls ih =>
    intro lb pc _ hall hs
    cases ls with
    | nil =>
      have hlast := sched_last p l pc (hall l (List.mem_cons_self _ _)) hclean hs
      rw [posWalkPara_cons]
      rw [if_pos (by simp)]
      show some (T + pc + min ([l].getLastD []).length l.length) = _
      show some (T + pc + min l.length l.length) = _
      rw [Nat.min_self]
      congr 1
      omega
    | cons l2 ls2 =>
      rw [posWalkPara_cons]
      have hne : lb ≠ lb + (l :: l2 :: ls2).length - 1 := by
        simp only [List.length_cons]
        omega
      rw [if_neg hne]
      have htail : ∀ x ∈ l2 :: ls2, x ≠ [] :=
        fun x hx => hall x (List.mem_cons_of_mem _ hx)
      have harith : lb + (l :: l2 :: ls2).length - 1 =
          (lb + 1) + (l2 :: ls2).length - 1 := by
        simp only [List.length_cons]
        omega
      have hlastd : ((l :: l2 :: ls2).getLastD []).length =
          (((l2 :: ls2)).getLastD []).length := by
        show ((l2 :: ls2).getLastD l).length = _
        rw [getLastD_indep (l2 :: ls2) (by simp) l []]
      by_cases hcond : pc + l.length < p.length ∧ p.getD (pc + l.length) ' ' = ' '
      · rw [if_pos hcond, harith, hlastd]
        exact ih (lb + 1) (pc + l.length + 1) (by simp) htail
          (sched_tail_pos p l (l2 :: ls2) pc hcond hs)
      · rw [if_neg hcond, harith, hlastd]
        exact ih (lb + 1) (pc + l.length) (by simp) htail
          (sched_tail_neg p l (l2 :: ls2) pc hcond hs)

theorem ideal_succ (p : List Char) (hclean : p.getLast? ≠ some ' ') :
    ∀ (ws : List (List Char)) (lb pc j L C : Nat),
      rejoinGo p ws pc = p.drop pc → (∀ l ∈ ws, l ≠ []) →
      pc ≤ j → j < p.length → p.getD j ' ' = ' ' →
      idealMap p ws lb pc j = some (L, C) →
      C = ((ws.getD (L - lb) []).length) →
      idealMap p ws lb pc (j + 1) = some (L + 1, 0) := by
  intro ws
  induction ws with
  | nil => intro lb pc j L C _ _ _ _ _ h _; exact absurd h (by simp [idealMap])
  | cons l ls ih =>
    intro lb pc j L C hs hall hpcj hjp hsp h hC
    rw [idealMap_cons] at h
    by_cases hin : j < pc + l.length
    · exfalso
      rw [if_pos hin] at h
      simp only [Option.some.injEq, Prod.mk.injEq] at h
      obtain ⟨hL, hCv⟩ := h
      rw [← hL, Nat.sub_self, List.getD_cons_zero] at hC
      omega
    · rw [if_neg hin] at h
      by_cases hcond : pc + l.length < p.length ∧ p.getD (pc + l.length) ' ' = ' '
      · rw [if_pos hcond] at h
        by_cases hj1 : j = pc + l.length
        · rw [if_pos hj1] at h
          simp only [Option.some.injEq, Prod.mk.injEq] at h
          obtain ⟨hL, hCv⟩ := h
          subst hL
          have hstail : rejoinGo p ls (pc + l.length + 1) =
              p.drop (pc + l.length + 1) := sched_tail_pos p l ls pc hcond hs
          have hj2 : pc + l.length + 1 < p.length := by
            by_contra hcon
            have hple : p ≠ [] := by
              intro he; rw [he] at hjp; simp at hjp
            have hlast := getLast?_getD p hple
            have hidx : p.length - 1 = pc + l.length := by omega
            rw [hidx, hcond.2] at hlast
            exact hclean hlast
          have hlsne : ls ≠ [] := by
            intro he
            rw [he] at hstail
            have := sched_nil p (pc + l.length + 1) hstail
            omega
          obtain ⟨l2, ls2, rfl⟩ : ∃ l2 ls2, ls = l2 :: ls2 := by
            cases ls with
            | nil => exact absurd rfl hlsne
            | cons a b => exact ⟨a, b, rfl⟩
          have hl2 : l2 ≠ [] :=
            hall l2 (List.mem_cons_of_mem _ (List.mem_cons_self _ _))
          rw [idealMap_cons, if_neg (by omega), if_pos hcond,
            if_neg (by omega), idealMap_cons,
            if_pos (by have := List.length_pos.mpr hl2; omega)]
          rw [hj1, Nat.sub_self]
        · rw [if_neg hj1] at h
          have hlb := idealMap_line_lb p ls (lb + 1) (pc + l.length + 1) j L C h
          have hCnext : C = ((ls.getD (L - (lb + 1)) []).length) := by
            rw [hC, show L - lb = (L - (lb + 1)) + 1 from by omega,
              List.getD_cons_succ]
          have := ih (lb + 1) (pc + l.length + 1) j L C
            (sched_tail_pos p l ls pc hcond hs)
            (fun x hx => hall x (List.mem_cons_of_mem _ hx))
            (by omega) hjp hsp h hCnext
          rw [idealMap_cons, if_neg (by omega), if_pos hcond,
            if_neg (by omega)]
          exact this
      · rw [if_neg hcond] at h
        have hj1 : j ≠ pc + l.length := by
          intro he
          exact hcond ⟨by omega, by rw [← he]; exact hsp⟩
        have hlb := idealMap_line_lb p ls (lb + 1) (pc + l.length) j L C h
        have hCnext : C = ((ls.getD (L - (lb + 1)) []).length) := by
          rw [hC, show L - lb = (L - (lb + 1)) + 1 from by omega,
            List.getD_cons_succ]
        have := ih (lb + 1) (pc + l.length) j L C
          (sched_tail_neg p l ls pc hcond hs)
          (fun x hx => hall x (List.mem_cons_of_mem _ hx))
          (by omega) hjp hsp h hCnext
        rw [idealMap_cons, if_neg (by omega), if_neg hcond]
        exact this

theorem cleanParaC2_parts {p : List Char} (h : cleanParaC2 p = true) :
    cleanParaC1 p = true ∧ p.getLast? ≠ some ' ' := by
  simp only [cleanParaC2, Bool.and_eq_true, decide_eq_true_eq] at h
  exact h

theorem textwrapWrap_ne_nil (width : Nat) (hw : 1 ≤ width) (p : List Char)
    (hpne : p ≠ []) (hc : cleanParaC1 p = true) : textwrapWrap width p ≠ [] := by
  intro he
  have hrt := textwrap_rejoin_clean width hw p hc
  rw [he] at hrt
  have h2 : ([] : List Char) = p := hrt
  exact hpne h2.symm

theorem wrapParaF_eq_textwrap (width : Nat) (hw : 1 ≤ width) (p : List Char)
    (hpne : p ≠ []) (hc : cleanParaC1 p = true) :
    wrapParaF width p = textwrapWrap width p := by
  unfold wrapParaF
  cases htw : textwrapWrap width p with
  | nil => exact absurd htw (textwrapWrap_ne_nil width hw p hpne hc)
  | cons a t => rfl

theorem wrapGo_lines_ne_nil (width : Nat) (hw : 1 ≤ width) :
    ∀ (fuel : Nat) (chunks : List (List Char)) (emitted : Bool),
      GoodChunks false chunks → sumLen chunks + 1 ≤ fuel →
      ∀ l ∈ wrapGo width fuel emitted chunks, l ≠ [] := by
  intro fuel
  induction fuel with
  | zero => intro chunks emitted _ hfuel l hl; omega
  | succ f ih =>
    intro chunks emitted hg hfuel l hl
    cases chunks with
    | nil =>
      simp only [wrapGo] at hl
      exact absurd hl (by simp)
    | cons c0 cs0 =>
      obtain ⟨line, s, rest, heq, hlne, hlen, hflat, hgrest, hsum⟩ :=
        wrapGo_step width hw f emitted (c0 :: cs0) hg (by simp)
      rw [heq] at hl
      rcases List.mem_cons.mp hl with rfl | hm
      · exact hlne
      · have hlpos : 1 ≤ line.length := List.length_pos.mpr hlne
        have hrest : sumLen rest + 1 ≤ f := by
          cases s with
          | true => simp at hsum; omega
          | false => simp at hsum; omega
        exact ih rest true hgrest hrest l hm

theorem wrapParaF_lines_ne_nil (width : Nat) (hw : 1 ≤ width) (p : List Char)
    (hpne : p ≠ []) (hc : cleanParaC1 p = true) :
    ∀ l ∈ wrapParaF width p, l ≠ [] := by
  obtain ⟨hgc, hnds, hhd⟩ := cleanParaC1_parts hc
  have hm : mungeWS p = p := mungeWS_id p hgc
  have hgood := (splitChunks_good p hgc hnds).2 hhd
  intro l hl
  rw [wrapParaF_eq_textwrap width hw p hpne hc] at hl
  unfold textwrapWrap at hl
  have hgood2 : GoodChunks false (splitChunks (mungeWS p)) := by
    rw [hm]; exact hgood
  exact wrapGo_lines_ne_nil width hw _ _ false hgood2 (le_refl _) l hl

theorem wrapParaF_length_pos (width : Nat) (p : List Char) :
    1 ≤ (wrapParaF width p).length := by
  unfold wrapParaF
  cases htw : textwrapWrap width p with
  | nil =>
    show (1 : Nat) ≤ [([] : List Char)].length
    simp
  | cons a t =>
    show 1 ≤ (a :: t).length
    simp

theorem wrapParaF_ne_nil (width : Nat) (p : List Char) :
    wrapParaF width p ≠ [] := by
  have := wrapParaF_length_pos width p
  intro he
  rw [he] at this
  simp at this

theorem wrapParaF_sched (width : Nat) (hw : 1 ≤ width) (p : List Char)
    (hc : cleanParaC1 p = true) :
    rejoinGo p (wrapParaF width p) 0 = p.drop 0 := by
  rw [List.drop_zero]
  exact wrapParaF_rejoin_clean width hw p hc

theorem buildParas_empty_cons (cpl : Nat) (ps : List (List Char))
    (li pstart : Nat) :
    buildParas cpl ([] :: ps) li pstart =
      ((([] : List Char) :: (buildParas cpl ps (li + 1) (pstart + 1)).1),
        (if ps ≠ [] then [(pstart, li, 0)] else []) ++
          (buildParas cpl ps (li + 1) (pstart + 1)).2) := by
  simp only [buildParas, if_pos rfl]
  rcases hb : buildParas cpl ps (li + 1) (pstart + 1) with ⟨ls, es⟩
  rfl

theorem buildParas_word_cons (cpl : Nat) (p : List Char)
    (ps : List (List Char)) (li pstart : Nat) (hp : p ≠ []) :
    buildParas cpl (p :: ps) li pstart =
      (wrapParaF cpl p ++ (buildParas cpl ps
          (li + (wrapParaF cpl p).length) (pstart + p.length + 1)).1,
        (paraWalk p pstart (wrapParaF cpl p) li 0 ++
          (if ps ≠ [] then [(pstart + p.length,
            li + (wrapParaF cpl p).length - 1,
            ((wrapParaF cpl p).getLastD []).length)] else [])) ++
          (buildParas cpl ps (li + (wrapParaF cpl p).length)
            (pstart + p.length + 1)).2) := by
  simp only [buildParas, if_neg hp]

theorem buildParas_fst_empty (cpl : Nat) (ps : List (List Char))
    (li pstart : Nat) :
    (buildParas cpl ([] :: ps) li pstart).1 =
      ([] : List Char) :: (buildParas cpl ps (li + 1) (pstart + 1)).1 := by
  rw [buildParas_empty_cons]

theorem buildParas_snd_empty (cpl : Nat) (ps : List (List Char))
    (li pstart : Nat) :
    (buildParas cpl ([] :: ps) li pstart).2 =
      (if ps ≠ [] then [(pstart, li, 0)] else []) ++
        (buildParas cpl ps (li + 1) (pstart + 1)).2 := by
  rw [buildParas_empty_cons]

theorem buildParas_fst_word (cpl : Nat) (p : List Char)
    (ps : List (List Char)) (li pstart : Nat) (hp : p ≠ []) :
    (buildParas cpl (p :: ps) li pstart).1 =
      wrapParaF cpl p ++ (buildParas cpl ps
        (li + (wrapParaF cpl p).length) (pstart + p.length + 1)).1 := by
  rw [buildParas_word_cons cpl p ps li pstart hp]

theorem buildParas_snd_word (cpl : Nat) (p : List Char)
    (ps : List (List Char)) (li pstart : Nat) (hp : p ≠ []) :
    (buildParas cpl (p :: ps) li pstart).2 =
      (paraWalk p pstart (wrapParaF cpl p) li 0 ++
        (if ps ≠ [] then [(pstart + p.length,
          li + (wrapParaF cpl p).length - 1,
          ((wrapParaF cpl p).getLastD []).length)] else [])) ++
        (buildParas cpl ps (li + (wrapParaF cpl p).length)
          (pstart + p.length + 1)).2 := by
  rw [buildParas_word_cons cpl p ps li pstart hp]

theorem buildParas_lines_ne_nil (cpl : Nat) (ps : List (List Char))
    (li pstart : Nat) (hne : ps ≠ []) :
    (buildParas cpl ps li pstart).1 ≠ [] := by
  rw [buildParas_lines]
  cases ps with
  | nil => exact absurd rfl hne
  | cons p t =>
    simp only [List.flatMap_cons]
    intro he
    have := wrapParaF_ne_nil cpl p
    rw [List.append_eq_nil] at he
    exact this he.1

theorem getLastD_append_lines (a b : List (List Char)) (hb : b ≠ []) :
    (a ++ b).getLastD [] = b.getLastD [] := by
  induction a with
  | nil => rfl
  | cons x xs ih =>
    rw [List.cons_append, List.getLastD_cons,
      getLastD_indep (xs ++ b) (by
        intro he
        rw [List.append_eq_nil] at he
        exact hb he.2) x []]
    exact ih

theorem joinNL_len_cons (p q : List Char) (qs : List (List Char)) :
    (joinNL (p :: q :: qs)).length = p.length + 1 + (joinNL (q :: qs)).length := by
  rw [joinNL_cons₂]
  simp only [List.length_append, List.length_cons]
  omega

theorem buildParas_keys_lb (cpl : Nat) :
    ∀ (ps : List (List Char)) (li pstart : Nat),
      ∀ e ∈ (buildParas cpl ps li pstart).2, pstart ≤ e.1 := by
  intro ps
  induction ps with
  | nil => intro li pstart e he; exact absurd he (by simp [buildParas])
  | cons p t ih =>
    intro li pstart e he
    by_cases hp : p = []
    · subst hp
      rw [buildParas_snd_empty] at he
      rcases List.mem_append.mp he with hl | hr
      · by_cases ht : t ≠ []
        · rw [if_pos ht] at hl
          simp only [List.mem_singleton] at hl
          subst hl
          exact le_refl _
        · rw [if_neg ht] at hl
          exact absurd hl (by simp)
      · have := ih (li + 1) (pstart + 1) e hr
        omega
    · rw [buildParas_snd_word cpl p t li pstart hp] at he
      rcases List.mem_append.mp he with hl | hes
      · rcases List.mem_append.mp hl with hpw | hnl
        · have := paraWalk_keys_lb p pstart (wrapParaF cpl p) li 0 e hpw
          omega
        · by_cases ht : t ≠ []
          · rw [if_pos ht] at hnl
            simp only [List.mem_singleton] at hnl
            subst hnl
            simp only []
            omega
          · rw [if_neg ht] at hnl
            exact absurd hnl (by simp)
      · have := ih (li + (wrapParaF cpl p).length) (pstart + p.length + 1) e hes
        omega

theorem buildParas_keys_ub (cpl : Nat) (hw : 1 ≤ cpl) :
    ∀ (ps : List (List Char)), (∀ p ∈ ps, cleanParaC2 p = true) →
      ∀ (li pstart : Nat),
      ∀ e ∈ (buildParas cpl ps li pstart).2,
        e.1 < pstart + (joinNL ps).length := by
  intro ps
  induction ps with
  | nil => intro _ li pstart e he; exact absurd he (by simp [buildParas])
  | cons p t ih =>
    intro hcl li pstart e he
    have hct : ∀ x ∈ t, cleanParaC2 x = true :=
      fun x hx => hcl x (List.mem_cons_of_mem _ hx)
    by_cases hp : p = []
    · subst hp
      rw [buildParas_snd_empty] at he
      cases t with
      | nil =>
        rcases List.mem_append.mp he with hl | hr
        · rw [if_neg (fun h => h rfl)] at hl
          exact absurd hl (by simp)
        · rw [show (buildParas cpl [] (li + 1) (pstart + 1)).2 = [] from rfl]
            at hr
          exact absurd hr (by simp)
      | cons q qs =>
        rw [joinNL_len_cons]
        rcases List.mem_append.mp he with hl | hr
        · rw [if_pos (List.cons_ne_nil q qs)] at hl
          simp only [List.mem_singleton] at hl
          subst hl
          simp only [List.length_nil]
          omega
        · have := ih hct (li + 1) (pstart + 1) e hr
          simp only [List.length_nil]
          omega
    · obtain ⟨hc1, hcend⟩ := cleanParaC2_parts (hcl p (List.mem_cons_self _ _))
      have hsched := wrapParaF_sched cpl hw p hc1
      have hlnn := wrapParaF_lines_ne_nil cpl hw p hp hc1
      rw [buildParas_snd_word cpl p t li pstart hp] at he
      have hloc : ∀ x ∈ paraWalk p pstart (wrapParaF cpl p) li 0,
          x.1 < pstart + p.length :=
        paraWalk_keys_ub p pstart (wrapParaF cpl p) li 0 hsched hlnn
      cases t with
      | nil =>
        rcases List.mem_append.mp he with hl | hes
        · rcases List.mem_append.mp hl with hpw | hnl
          · have := hloc e hpw
            show e.1 < pstart + (joinNL [p]).length
            show e.1 < pstart + p.length
            omega
          · rw [if_neg (fun h => h rfl)] at hnl
            exact absurd hnl (by simp)
        · rw [show (buildParas cpl [] (li + (wrapParaF cpl p).length)
              (pstart + p.length + 1)).2 = [] from rfl] at hes
          exact absurd hes (by simp)
      | cons q qs =>
        rw [joinNL_len_cons]
        rcases List.mem_append.mp he with hl | hes
        · rcases List.mem_append.mp hl with hpw | hnl
          · have := hloc e hpw
            omega
          · rw [if_pos (List.cons_ne_nil q qs)] at hnl
            simp only [List.mem_singleton] at hnl
            subst hnl
            simp only []
            omega
        · have := ih hct (li + (wrapParaF cpl p).length)
            (pstart + p.length + 1) e hes
          omega

theorem posParas_cons_empty (cpl tL tC : Nat) (ps : List (List Char))
    (li tp : Nat) :
    posParas cpl tL tC ([] :: ps) li tp =
      if li = tL then some (tp + min tC 0)
      else posParas cpl tL tC ps (li + 1) (tp + 1) := rfl

theorem posParas_cons_word (cpl tL tC : Nat) (p : List Char)
    (ps : List (List Char)) (li tp : Nat) (hp : p ≠ []) :
    posParas cpl tL tC (p :: ps) li tp =
      match posWalkPara p tp tL tC (wrapParaF cpl p) li 0 with
      | some r => some r
      | none =>
        posParas cpl tL tC ps (li + (wrapParaF cpl p).length)
          (tp + p.length + 1) := by
  show (if p = [] then _ else _) = _
  rw [if_neg hp]

theorem posParas_cons_found (cpl tL tC : Nat) (p : List Char)
    (ps : List (List Char)) (li tp r : Nat) (hp : p ≠ [])
    (h : posWalkPara p tp tL tC (wrapParaF cpl p) li 0 = some r) :
    posParas cpl tL tC (p :: ps) li tp = some r := by
  rw [posParas_cons_word cpl tL tC p ps li tp hp, h]

theorem posParas_cons_step (cpl tL tC : Nat) (p : List Char)
    (ps : List (List Char)) (li tp : Nat) (hp : p ≠ [])
    (h : posWalkPara p tp tL tC (wrapParaF cpl p) li 0 = none) :
    posParas cpl tL tC (p :: ps) li tp =
      posParas cpl tL tC ps (li + (wrapParaF cpl p).length)
        (tp + p.length + 1) := by
  rw [posParas_cons_word cpl tL tC p ps li tp hp, h]

theorem buildParas_lookup_inv (cpl : Nat) (hw : 1 ≤ cpl) :
    ∀ (ps : List (List Char)), (∀ p ∈ ps, cleanParaC2 p = true) →
    ∀ (L0 B j : Nat), j < (joinNL ps).length →
    ∃ L C, lookupLast (buildParas cpl ps L0 B).2 (B + j) = some (L, C) ∧
      L0 ≤ L ∧ posParas cpl L C ps L0 B = some (B + j) := by
  intro ps
  induction ps with
  | nil =>
    intro _ L0 B j hj
    have h0 : (joinNL ([] : List (List Char))).length = 0 := rfl
    omega
  | cons p t ih =>
    intro hcl L0 B j hj
    have hct : ∀ x ∈ t, cleanParaC2 x = true :=
      fun x hx => hcl x (List.mem_cons_of_mem _ hx)
    by_cases hp : p = []
    · subst hp
      cases t with
      | nil =>
        have h0 : (joinNL [([] : List Char)]).length = 0 := rfl
        omega
      | cons q qs =>
        have hjlen : (joinNL ([] :: q :: qs)).length =
            1 + (joinNL (q :: qs)).length := by
          rw [joinNL_len_cons]; simp
        rw [buildParas_snd_empty, if_pos (List.cons_ne_nil q qs)]
        by_cases hj0 : j = 0
        · subst hj0
          refine ⟨L0, 0, ?_, le_refl _, ?_⟩
          · have hes : lookupLast
                (buildParas cpl (q :: qs) (L0 + 1) (B + 1)).2 B = none := by
              apply lookupLast_none
              intro e he
              have := buildParas_keys_lb cpl (q :: qs) (L0 + 1) (B + 1) e he
              omega
            rw [show B + 0 = B from rfl]
            rw [lookupLast_skip _ _ _ hes, lookupLast_one]
            rw [if_pos rfl]
          · rw [posParas_cons_empty, if_pos rfl]
            rfl
        · obtain ⟨j2, rfl⟩ : ∃ j2, j = 1 + j2 := ⟨j - 1, by omega⟩
          rw [hjlen] at hj
          obtain ⟨L, C, hlook, hL, hpos⟩ := ih hct (L0 + 1) (B + 1) j2 (by omega)
          refine ⟨L, C, ?_, by omega, ?_⟩
          · have h1 : lookupLast
                (buildParas cpl (q :: qs) (L0 + 1) (B + 1)).2
                (B + (1 + j2)) = some (L, C) := by
              rw [show B + (1 + j2) = B + 1 + j2 from by omega]
              exact hlook
            exact lookupLast_found _ _ _ _ h1
          · rw [posParas_cons_empty, if_neg (by omega)]
            rw [show B + (1 + j2) = B + 1 + j2 from by omega]
            exact hpos
    · obtain ⟨hc1, hcend⟩ := cleanParaC2_parts (hcl p (List.mem_cons_self _ _))
      have hsched := wrapParaF_sched cpl hw p hc1
      have hlnn := wrapParaF_lines_ne_nil cpl hw p hp hc1
      have hwne : wrapParaF cpl p ≠ [] := wrapParaF_ne_nil cpl p
      rw [buildParas_snd_word cpl p t L0 B hp]
      by_cases hjp : j < p.length
      · obtain ⟨⟨L, C⟩, hI⟩ :=
          idealMap_covers p (wrapParaF cpl p) L0 0 j hsched hlnn (by omega) hjp
        have hlook0 : lookupLast (paraWalk p B (wrapParaF cpl p) L0 0) (B + j) =
            some (L, C) := by
          rw [paraWalk_lookup p B (wrapParaF cpl p) L0 0 j (by omega)]
          exact hI
        refine ⟨L, C, ?_, idealMap_line_lb p _ L0 0 j L C hI, ?_⟩
        · have hses : lookupLast (buildParas cpl t
              (L0 + (wrapParaF cpl p).length) (B + p.length + 1)).2
              (B + j) = none := by
            apply lookupLast_none
            intro e he
            have := buildParas_keys_lb cpl t (L0 + (wrapParaF cpl p).length)
              (B + p.length + 1) e he
            omega
          have hsnl : lookupLast (if t ≠ [] then
              [(B + p.length, L0 + (wrapParaF cpl p).length - 1,
                ((wrapParaF cpl p).getLastD []).length)] else [])
              (B + j) = none := by
            apply lookupLast_none
            intro e he
            by_cases ht : t ≠ []
            · rw [if_pos ht] at he
              simp only [List.mem_singleton] at he
              subst he
              simp only []
              omega
            · rw [if_neg ht] at he
              exact absurd he (by simp)
          rw [lookupLast_skip _ _ _ hses, lookupLast_skip _ _ _ hsnl]
          exact hlook0
        · exact posParas_cons_found cpl L C p t L0 B (B + j) hp
            (posWalkPara_ideal p B (wrapParaF cpl p) L0 0 j L C (by omega) hI)
      · cases t with
        | nil =>
          exfalso
          have h0 : (joinNL [p]).length = p.length := rfl
          omega
        | cons q qs =>
          rw [joinNL_len_cons] at hj
          rw [if_pos (List.cons_ne_nil q qs)]
          by_cases hjeq : j = p.length
          · subst hjeq
            refine ⟨L0 + (wrapParaF cpl p).length - 1,
              ((wrapParaF cpl p).getLastD []).length, ?_, ?_, ?_⟩
            · have hses : lookupLast (buildParas cpl (q :: qs)
                  (L0 + (wrapParaF cpl p).length) (B + p.length + 1)).2
                  (B + p.length) = none := by
                apply lookupLast_none
                intro e he
                have := buildParas_keys_lb cpl (q :: qs)
                  (L0 + (wrapParaF cpl p).length) (B + p.length + 1) e he
                omega
              rw [lookupLast_skip _ _ _ hses]
              have h1 : lookupLast [(B + p.length,
                  L0 + (wrapParaF cpl p).length - 1,
                  ((wrapParaF cpl p).getLastD []).length)]
                  (B + p.length) = some (L0 + (wrapParaF cpl p).length - 1,
                  ((wrapParaF cpl p).getLastD []).length) := by
                rw [lookupLast_one]
                rw [if_pos rfl]
              exact lookupLast_found _ _ _ _ h1
            · have := wrapParaF_length_pos cpl p
              omega
            · exact posParas_cons_found cpl _ _ p (q :: qs) L0 B
                (B + p.length) hp
                (posWalkPara_end p B hcend (wrapParaF cpl p) L0 0 hwne
                  hlnn hsched)
          · obtain ⟨j2, rfl⟩ : ∃ j2, j = p.length + 1 + j2 :=
              ⟨j - p.length - 1, by omega⟩
            obtain ⟨L, C, hlook, hL, hpos⟩ := ih hct
              (L0 + (wrapParaF cpl p).length) (B + p.length + 1) j2 (by omega)
            refine ⟨L, C, ?_, by have := wrapParaF_length_pos cpl p; omega, ?_⟩
            · have h1 : lookupLast (buildParas cpl (q :: qs)
                  (L0 + (wrapParaF cpl p).length) (B + p.length + 1)).2
                  (B + (p.length + 1 + j2)) = some (L, C) := by
                rw [show B + (p.length + 1 + j2) = B + p.length + 1 + j2
                  from by omega]
                exact hlook
              exact lookupLast_found _ _ _ _ h1
            · rw [posParas_cons_step cpl L C p (q :: qs) L0 B hp
                (posWalkPara_none p B L C (wrapParaF cpl p) L0 0 (by omega))]
              rw [show B + (p.length + 1 + j2) = B + p.length + 1 + j2
                from by omega]
              exact hpos

theorem posParas_end (cpl : Nat) (hw : 1 ≤ cpl) :
    ∀ (ps : List (List Char)), (∀ p ∈ ps, cleanParaC2 p = true) → ps ≠ [] →
    ∀ (L0 B : Nat),
      posParas cpl (L0 + (buildParas cpl ps L0 B).1.length - 1)
        (((buildParas cpl ps L0 B).1.getLastD []).length) ps L0 B =
        some (B + (joinNL ps).length) := by
  intro ps
  induction ps with
  | nil => intro _ h; exact absurd rfl h
  | cons p t ih =>
    intro hcl _ L0 B
    have hct : ∀ x ∈ t, cleanParaC2 x = true :=
      fun x hx => hcl x (List.mem_cons_of_mem _ hx)
    by_cases hp : p = []
    · subst hp
      rw [buildParas_fst_empty]
      cases t with
      | nil =>
        rw [show (buildParas cpl [] (L0 + 1) (B + 1)).1 = [] from rfl]
        rw [posParas_cons_empty]
        rw [if_pos (by simp)]
        rw [show ((([] : List Char) :: []).getLastD []).length = 0 from rfl]
        rfl
      | cons q qs =>
        set ls := (buildParas cpl (q :: qs) (L0 + 1) (B + 1)).1 with hls
        have hlsne : ls ≠ [] :=
          buildParas_lines_ne_nil cpl (q :: qs) (L0 + 1) (B + 1)
            (List.cons_ne_nil q qs)
        have hlen1 : 1 ≤ ls.length := by
          cases hc : ls with
          | nil => exact absurd hc hlsne
          | cons a b => simp [hc]
        rw [posParas_cons_empty]
        rw [if_neg (by simp only [List.length_cons]; omega)]
        have harith : L0 + (([] : List Char) :: ls).length - 1 =
            (L0 + 1) + ls.length - 1 := by
          simp only [List.length_cons]
          omega
        have hlast : ((([] : List Char) :: ls).getLastD []).length =
            ((ls).getLastD []).length := by
          rw [List.getLastD_cons, getLastD_indep ls hlsne [] []]
        rw [harith, hlast]
        rw [ih hct (List.cons_ne_nil q qs) (L0 + 1) (B + 1)]
        rw [joinNL_len_cons]
        simp only [List.length_nil]
        congr 1
        omega
    · obtain ⟨hc1, hcend⟩ := cleanParaC2_parts (hcl p (List.mem_cons_self _ _))
      have hsched := wrapParaF_sched cpl hw p hc1
      have hlnn := wrapParaF_lines_ne_nil cpl hw p hp hc1
      have hwne : wrapParaF cpl p ≠ [] := wrapParaF_ne_nil cpl p
      have hwlen : 1 ≤ (wrapParaF cpl p).length := wrapParaF_length_pos cpl p
      rw [buildParas_fst_word cpl p t L0 B hp]
      cases t with
      | nil =>
        rw [show (buildParas cpl [] (L0 + (wrapParaF cpl p).length)
            (B + p.length + 1)).1 = [] from rfl]
        rw [List.append_nil]
        exact posParas_cons_found cpl _ _ p [] L0 B (B + p.length) hp
          (posWalkPara_end p B hcend (wrapParaF cpl p) L0 0 hwne hlnn hsched)
      | cons q qs =>
        set ls := (buildParas cpl (q :: qs)
          (L0 + (wrapParaF cpl p).length) (B + p.length + 1)).1 with hls
        have hlsne : ls ≠ [] :=
          buildParas_lines_ne_nil cpl (q :: qs)
            (L0 + (wrapParaF cpl p).length) (B + p.length + 1)
            (List.cons_ne_nil q qs)
        have hlen1 : 1 ≤ ls.length := by
          cases hc : ls with
          | nil => exact absurd hc hlsne
          | cons a b => simp [hc]
        have harith : L0 + (wrapParaF cpl p ++ ls).length - 1 =
            (L0 + (wrapParaF cpl p).length) + ls.length - 1 := by
          simp only [List.length_append]
          omega
        have hlast : ((wrapParaF cpl p ++ ls).getLastD []).length =
            (ls.getLastD []).length := by
          rw [getLastD_append_lines _ _ hlsne]
        rw [harith, hlast]
        have hnone : posWalkPara p B
            ((L0 + (wrapParaF cpl p).length) + ls.length - 1)
            ((ls.getLastD []).length) (wrapParaF cpl p) L0 0 = none := by
          apply posWalkPara_none
          omega
        rw [posParas_cons_step cpl _ _ p (q :: qs) L0 B hp hnone]
        rw [ih hct (List.cons_ne_nil q qs)
          (L0 + (wrapParaF cpl p).length) (B + p.length + 1)]
        rw [joinNL_len_cons]
        congr 1
        omega

theorem splitNL_clean_of_cleanTextC2 {text : List Char}
    (hc : cleanTextC2 text = true) :
    ∀ p ∈ splitNL text, cleanParaC2 p = true := by
  unfold cleanTextC2 at hc
  exact List.all_eq_true.mp hc

theorem wrapLines_eq (cpl : Nat) (text : List Char) :
    wrapLines cpl text = (buildParas cpl (splitNL text) 0 0).1 := by
  unfold wrapLines
  cases hb : (buildParas cpl (splitNL text) 0 0).1 with
  | nil =>
    exact absurd hb
      (buildParas_lines_ne_nil cpl (splitNL text) 0 0 (splitNL_ne_nil text))
  | cons a t => rfl

theorem forwardPos_found (cpl : Nat) (text : List Char) (o : Nat)
    (lc : Nat × Nat) (ho : ¬ text.length ≤ o)
    (h : lookupLast (entriesOf cpl text) o = some lc) :
    forwardPos cpl text o = lc := by
  unfold forwardPos
  rw [if_neg ho, h]

/-- Claim C2 (amended): for clean text — printable ASCII, single
spaces, paragraphs neither beginning nor ending with a space — and
`wrap_width ≥ 1`, applying the forward mapping of `_wrap_with_cursor`
and then the inverse mapping `_pos_from_line_col` returns the original
offset, for every offset `0..=len(text)`. -/
theorem forward_inverse_clean (cpl : Nat) (text : List Char) (o : Nat)
    (hw : 1 ≤ cpl) (hc : cleanTextC2 text = true) (ho : o ≤ text.length) :
    pos_from_line_col cpl text (forwardPos cpl text o).1
      (forwardPos cpl text o).2 = o := by
  have hcp := splitNL_clean_of_cleanTextC2 hc
  have hlen : (joinNL (splitNL text)).length = text.length := by
    rw [joinNL_splitNL]
  by_cases hoe : text.length ≤ o
  · have hfwd : forwardPos cpl text o =
        ((wrapLines cpl text).length - 1,
          ((wrapLines cpl text).getLastD []).length) := by
      unfold forwardPos
      rw [if_pos hoe]
    have hend := posParas_end cpl hw (splitNL text) hcp (splitNL_ne_nil text) 0 0
    rw [hfwd]
    unfold pos_from_line_col
    rw [wrapLines_eq]
    rw [show (buildParas cpl (splitNL text) 0 0).1.length - 1 =
      0 + (buildParas cpl (splitNL text) 0 0).1.length - 1 from by omega]
    rw [hend]
    simp only [Option.getD_some]
    omega
  · have hjlt : o < (joinNL (splitNL text)).length := by omega
    obtain ⟨L, C, hlook, hL, hpos⟩ :=
      buildParas_lookup_inv cpl hw (splitNL text) hcp 0 0 o hjlt
    rw [Nat.zero_add] at hlook hpos
    have hfwd : forwardPos cpl text o = (L, C) :=
      forwardPos_found cpl text o (L, C) hoe hlook
    rw [hfwd]
    unfold pos_from_line_col
    rw [hpos]
    rfl

/-- Claim C2 witness: the round trip at `wrap_width = 2` on the clean
text `"ab cd"` at offset 3. -/
theorem forward_inverse_clean_witness :
    pos_from_line_col 2 "ab cd".toList
      (forwardPos 2 "ab cd".toList 3).1 (forwardPos 2 "ab cd".toList 3).2 = 3 :=
  forward_inverse_clean 2 "ab cd".toList 3 (by decide) (by decide) (by decide)

/-- Claim C2 counterexample: for the raw text `"a "` (trailing space)
at offset 2, the forward mapping sends the offset to the end of the
wrapped line `"a"` (the trailing space is dropped by the wrapper), and
the inverse mapping returns 1, not 2. -/
theorem forward_inverse_trailing_space :
    pos_from_line_col 2 ['a', ' '] (forwardPos 2 ['a', ' '] 2).1
      (forwardPos 2 ['a', ' '] 2).2 ≠ 2 := by decide


theorem getD_append_left_gen {α : Type} (l1 l2 : List α) (n : Nat) (d : α)
    (h : n < l1.length) : (l1 ++ l2).getD n d = l1.getD n d := by
  simp [List.getD, List.getElem?_append_left h]

theorem getD_append_right_gen {α : Type} (l1 l2 : List α) (k : Nat) (d : α) :
    (l1 ++ l2).getD (l1.length + k) d = l2.getD k d := by
  simp [List.getD, List.getElem?_append_right (Nat.le_add_right l1.length k)]

theorem joinNL_getD_left (p q : List Char) (qs : List (List Char))
    (j : Nat) (d : Char) (h : j < p.length) :
    (joinNL (p :: q :: qs)).getD j d = p.getD j d := by
  rw [joinNL_cons₂]
  exact getD_append_left_gen p _ j d h

theorem joinNL_getD_nl (p q : List Char) (qs : List (List Char)) (d : Char) :
    (joinNL (p :: q :: qs)).getD p.length d = '\n' := by
  rw [joinNL_cons₂]
  have := getD_append_right_gen p ('\n' :: joinNL (q :: qs)) 0 d
  rw [Nat.add_zero] at this
  rw [this]
  rfl

theorem joinNL_getD_right (p q : List Char) (qs : List (List Char))
    (k : Nat) (d : Char) :
    (joinNL (p :: q :: qs)).getD (p.length + 1 + k) d =
      (joinNL (q :: qs)).getD k d := by
  rw [joinNL_cons₂]
  rw [show p.length + 1 + k = p.length + (1 + k) from by omega,
    getD_append_right_gen]
  rw [Nat.add_comm 1 k]
  exact List.getD_cons_succ

theorem idealMap_key_ub (p : List Char) :
    ∀ (ws : List (List Char)) (lb pc j : Nat) (v : Nat × Nat),
      rejoinGo p ws pc = p.drop pc → (∀ l ∈ ws, l ≠ []) →
      idealMap p ws lb pc j = some v → j < p.length := by
  intro ws
  induction ws with
  | nil => intro lb pc j v _ _ h; exact absurd h (by simp [idealMap])
  | cons l ls ih =>
    intro lb pc j v hs hall h
    have hb : pc + l.length ≤ p.length :=
      sched_bound p l ls pc (hall l (List.mem_cons_self _ _)) hs
    rw [idealMap_cons] at h
    by_cases hin : j < pc + l.length
    · omega
    · rw [if_neg hin] at h
      by_cases hcond : pc + l.length < p.length ∧ p.getD (pc + l.length) ' ' = ' '
      · rw [if_pos hcond] at h
        by_cases hj1 : j = pc + l.length
        · omega
        · rw [if_neg hj1] at h
          exact ih (lb + 1) (pc + l.length + 1) j v
            (sched_tail_pos p l ls pc hcond hs)
            (fun x hx => hall x (List.mem_cons_of_mem _ hx)) h
      · rw [if_neg hcond] at h
        exact ih (lb + 1) (pc + l.length) j v
          (sched_tail_neg p l ls pc hcond hs)
          (fun x hx => hall x (List.mem_cons_of_mem _ hx)) h

theorem lookupLast_right (a b : List (Nat × Nat × Nat)) (k : Nat)
    (h : lookupLast a k = none) :
    lookupLast (a ++ b) k = lookupLast b k := by
  rw [lookupLast_append]
  rcases hb : lookupLast b k with _ | v
  · exact h
  · rfl

theorem lookupLast_mem :
    ∀ (l : List (Nat × Nat × Nat)) (k : Nat) (v : Nat × Nat),
      lookupLast l k = some v → (k, v) ∈ l := by
  intro l
  induction l with
  | nil => intro k v h; exact absurd h (by simp [lookupLast])
  | cons e es ih =>
    intro k v h
    rw [show e :: es = [e] ++ es from rfl, lookupLast_append] at h
    rcases hb : lookupLast es k with _ | w
    · rw [hb] at h
      have h2 : (if e.1 = k then some e.2 else none) = some v := h
      by_cases hek : e.1 = k
      · rw [if_pos hek] at h2
        have hv : e.2 = v := Option.some.injEq _ _ ▸ h2
        have : (k, v) = e := by
          rw [← hek, ← hv]
        rw [this]
        exact List.mem_cons_self _ _
      · rw [if_neg hek] at h2
        exact absurd h2 (by simp)
    · rw [hb] at h
      have hv : w = v := Option.some.injEq _ _ ▸ h
      subst hv
      exact List.mem_cons_of_mem _ (ih k w hb)

theorem paraWalk_vals_lb (p : List Char) (B : Nat) :
    ∀ (ws : List (List Char)) (lb pc : Nat),
      ∀ e ∈ paraWalk p B ws lb pc, lb ≤ e.2.1 := by
  intro ws
  induction ws with
  | nil => intro lb pc e he; exact absurd he (by simp [paraWalk])
  | cons l ls ih =>
    intro lb pc e he
    rw [paraWalk_cons] at he
    by_cases hcond : pc + l.length < p.length ∧ p.getD (pc + l.length) ' ' = ' '
    · rw [if_pos hcond] at he
      rcases List.mem_append.mp he with hcol | hrest
      · obtain ⟨col, _, rfl⟩ := List.mem_map.mp hcol
        simp only []
        omega
      · rcases List.mem_cons.mp hrest with rfl | hrec
        · simp only []
          omega
        · have := ih (lb + 1) (pc + l.length + 1) e hrec
          omega
    · rw [if_neg hcond] at he
      rcases List.mem_append.mp he with hcol | hrec
      · obtain ⟨col, _, rfl⟩ := List.mem_map.mp hcol
        simp only []
        omega
      · have := ih (lb + 1) (pc + l.length) e hrec
        omega

theorem buildParas_vals_lb (cpl : Nat) :
    ∀ (ps : List (List Char)) (li pstart : Nat),
      ∀ e ∈ (buildParas cpl ps li pstart).2, li ≤ e.2.1 := by
  intro ps
  induction ps with
  | nil => intro li pstart e he; exact absurd he (by simp [buildParas])
  | cons p t ih =>
    intro li pstart e he
    by_cases hp : p = []
    · subst hp
      rw [buildParas_snd_empty] at he
      rcases List.mem_append.mp he with hl | hr
      · by_cases ht : t ≠ []
        · rw [if_pos ht] at hl
          simp only [List.mem_singleton] at hl
          subst hl
          exact le_refl _
        · rw [if_neg ht] at hl
          exact absurd hl (by simp)
      · have := ih (li + 1) (pstart + 1) e hr
        omega
    · rw [buildParas_snd_word cpl p t li pstart hp] at he
      rcases List.mem_append.mp he with hl | hes
      · rcases List.mem_append.mp hl with hpw | hnl
        · exact paraWalk_vals_lb p pstart (wrapParaF cpl p) li 0 e hpw
        · by_cases ht : t ≠ []
          · rw [if_pos ht] at hnl
            simp only [List.mem_singleton] at hnl
            subst hnl
            simp only []
            have := wrapParaF_length_pos cpl p
            omega
          · rw [if_neg ht] at hnl
            exact absurd hnl (by simp)
      · have := ih (li + (wrapParaF cpl p).length) (pstart + p.length + 1) e hes
        omega

theorem buildParas_lookup_succ (cpl : Nat) (hw : 1 ≤ cpl) :
    ∀ (ps : List (List Char)), (∀ p ∈ ps, cleanParaC2 p = true) →
    ∀ (L0 B j L C : Nat), j < (joinNL ps).length →
    (joinNL ps).getD j ' ' = ' ' →
    lookupLast (buildParas cpl ps L0 B).2 (B + j) = some (L, C) →
    C = (((buildParas cpl ps L0 B).1.getD (L - L0) []).length) →
    lookupLast (buildParas cpl ps L0 B).2 (B + j + 1) = some (L + 1, 0) := by
  intro ps
  induction ps with
  | nil =>
    intro _ L0 B j L C hj _ _ _
    have h0 : (joinNL ([] : List (List Char))).length = 0 := rfl
    omega
  | cons p t ih =>
    intro hcl L0 B j L C hj hsp hlook hC
    have hct : ∀ x ∈ t, cleanParaC2 x = true :=
      fun x hx => hcl x (List.mem_cons_of_mem _ hx)
    by_cases hp : p = []
    · subst hp
      cases t with
      | nil =>
        have h0 : (joinNL [([] : List Char)]).length = 0 := rfl
        omega
      | cons q qs =>
        rw [buildParas_snd_empty, if_pos (List.cons_ne_nil q qs)] at hlook ⊢
        rw [buildParas_fst_empty] at hC
        by_cases hj0 : j = 0
        · exfalso
          subst hj0
          have := joinNL_getD_nl [] q qs ' '
          simp only [List.length_nil] at this
          rw [this] at hsp
          exact absurd hsp (by decide)
        · obtain ⟨j2, rfl⟩ : ∃ j2, j = 1 + j2 := ⟨j - 1, by omega⟩
          have hlocn : lookupLast [(B, L0, 0)] (B + (1 + j2)) = none := by
            rw [lookupLast_one, if_neg (by omega)]
          rw [lookupLast_right _ _ _ hlocn] at hlook
          have hmem := lookupLast_mem _ _ _ hlook
          have hLlb : L0 + 1 ≤ (L, C).1 := by
            have := buildParas_vals_lb cpl (q :: qs) (L0 + 1) (B + 1)
              (B + (1 + j2), L, C) hmem
            exact this
          simp only [] at hLlb
          have hj2len : j2 < (joinNL (q :: qs)).length := by
            rw [joinNL_len_cons] at hj
            simp only [List.length_nil] at hj
            omega
          have hsp2 : (joinNL (q :: qs)).getD j2 ' ' = ' ' := by
            have := joinNL_getD_right [] q qs j2 ' '
            simp only [List.length_nil] at this
            rw [show 0 + 1 + j2 = 1 + j2 from by omega] at this
            rw [← this]
            exact hsp
          have hC2 : C = (((buildParas cpl (q :: qs)
              (L0 + 1) (B + 1)).1.getD (L - (L0 + 1)) []).length) := by
            rw [hC, show L - L0 = (L - (L0 + 1)) + 1 from by omega,
              List.getD_cons_succ]
          have hlook2 : lookupLast (buildParas cpl (q :: qs)
              (L0 + 1) (B + 1)).2 (B + 1 + j2) = some (L, C) := by
            rw [show B + 1 + j2 = B + (1 + j2) from by omega]
            exact hlook
          have := ih hct (L0 + 1) (B + 1) j2 L C hj2len hsp2 hlook2 hC2
          have hlocn2 : lookupLast [(B, L0, 0)] (B + (1 + j2) + 1) = none := by
            rw [lookupLast_one, if_neg (by omega)]
          rw [lookupLast_right _ _ _ hlocn2]
          rw [show B + (1 + j2) + 1 = B + 1 + j2 + 1 from by omega]
          exact this
    · obtain ⟨hc1, hcend⟩ := cleanParaC2_parts (hcl p (List.mem_cons_self _ _))
      have hsched := wrapParaF_sched cpl hw p hc1
      have hlnn := wrapParaF_lines_ne_nil cpl hw p hp hc1
      have hwlen : 1 ≤ (wrapParaF cpl p).length := wrapParaF_length_pos cpl p
      rw [buildParas_snd_word cpl p t L0 B hp] at hlook ⊢
      rw [buildParas_fst_word cpl p t L0 B hp] at hC
      by_cases hjp : j < p.length
      · have hchar : p.getD j ' ' = ' ' := by
          cases t with
          | nil => exact hsp
          | cons q qs => rw [← joinNL_getD_left p q qs j ' ' hjp]; exact hsp
        have hlook2 : lookupLast ((paraWalk p B (wrapParaF cpl p) L0 0 ++
            (if t ≠ [] then [(B + p.length,
              L0 + (wrapParaF cpl p).length - 1,
              ((wrapParaF cpl p).getLastD []).length)] else [])) ++
            (buildParas cpl t (L0 + (wrapParaF cpl p).length)
              (B + p.length + 1)).2) (B + j) =
            idealMap p (wrapParaF cpl p) L0 0 j := by
          have hses : lookupLast (buildParas cpl t
              (L0 + (wrapParaF cpl p).length) (B + p.length + 1)).2
              (B + j) = none := by
            apply lookupLast_none
            intro e he
            have := buildParas_keys_lb cpl t (L0 + (wrapParaF cpl p).length)
              (B + p.length + 1) e he
            omega
          have hsnl : lookupLast (if t ≠ [] then
              [(B + p.length, L0 + (wrapParaF cpl p).length - 1,
                ((wrapParaF cpl p).getLastD []).length)] else [])
              (B + j) = none := by
            apply lookupLast_none
            intro e he
            by_cases ht : t ≠ []
            · rw [if_pos ht] at he
              simp only [List.mem_singleton] at he
              subst he
              simp only []
              omega
            · rw [if_neg ht] at he
              exact absurd he (by simp)
          rw [lookupLast_skip _ _ _ hses, lookupLast_skip _ _ _ hsnl]
          exact paraWalk_lookup p B (wrapParaF cpl p) L0 0 j (by omega)
        have hI : idealMap p (wrapParaF cpl p) L0 0 j = some (L, C) :=
          hlook2.symm.trans hlook
        have hLlb := idealMap_line_lb p (wrapParaF cpl p) L0 0 j L C hI
        have hLub := idealMap_line_ub p (wrapParaF cpl p) L0 0 j L C hI
        have hC2 : C = (((wrapParaF cpl p).getD (L - L0) []).length) := by
          rw [hC, getD_append_left_gen _ _ _ _ (by omega)]
        have hI2 : idealMap p (wrapParaF cpl p) L0 0 (j + 1) =
            some (L + 1, 0) :=
          ideal_succ p hcend (wrapParaF cpl p) L0 0 j L C hsched hlnn
            (by omega) hjp hchar hI hC2
        have hj1p : j + 1 < p.length :=
          idealMap_key_ub p (wrapParaF cpl p) L0 0 (j + 1) (L + 1, 0)
            hsched hlnn hI2
        have hses : lookupLast (buildParas cpl t
            (L0 + (wrapParaF cpl p).length) (B + p.length + 1)).2
            (B + j + 1) = none := by
          apply lookupLast_none
          intro e he
          have := buildParas_keys_lb cpl t (L0 + (wrapParaF cpl p).length)
            (B + p.length + 1) e he
          omega
        have hsnl : lookupLast (if t ≠ [] then
            [(B + p.length, L0 + (wrapParaF cpl p).length - 1,
              ((wrapParaF cpl p).getLastD []).length)] else [])
            (B + j + 1) = none := by
          apply lookupLast_none
          intro e he
          by_cases ht : t ≠ []
          · rw [if_pos ht] at he
            simp only [List.mem_singleton] at he
            subst he
            simp only []
            omega
          · rw [if_neg ht] at he
            exact absurd he (by simp)
        rw [lookupLast_skip _ _ _ hses, lookupLast_skip _ _ _ hsnl]
        rw [show B + j + 1 = B + (j + 1) from by omega]
        rw [paraWalk_lookup p B (wrapParaF cpl p) L0 0 (j + 1) (by omega)]
        exact hI2
      · cases t with
        | nil =>
          exfalso
          have h0 : (joinNL [p]).length = p.length := rfl
          omega
        | cons q qs =>
          by_cases hjeq : j = p.length
          · exfalso
            subst hjeq
            rw [joinNL_getD_nl p q qs ' '] at hsp
            exact absurd hsp (by decide)
          · obtain ⟨j2, rfl⟩ : ∃ j2, j = p.length + 1 + j2 :=
              ⟨j - p.length - 1, by omega⟩
            have hlocn : lookupLast (paraWalk p B (wrapParaF cpl p) L0 0 ++
                (if (q :: qs : List (List Char)) ≠ [] then [(B + p.length,
                  L0 + (wrapParaF cpl p).length - 1,
                  ((wrapParaF cpl p).getLastD []).length)] else []))
                (B + (p.length + 1 + j2)) = none := by
              apply lookupLast_none
              intro e he
              rcases List.mem_append.mp he with hpw | hnl
              · have hub := paraWalk_keys_ub p B (wrapParaF cpl p) L0 0
                  hsched hlnn e hpw
                omega
              · rw [if_pos (List.cons_ne_nil q qs)] at hnl
                simp only [List.mem_singleton] at hnl
                subst hnl
                simp only []
                omega
            rw [lookupLast_right _ _ _ hlocn] at hlook
            have hmem := lookupLast_mem _ _ _ hlook
            have hLlb : L0 + (wrapParaF cpl p).length ≤ (L, C).1 := by
              exact buildParas_vals_lb cpl (q :: qs)
                (L0 + (wrapParaF cpl p).length) (B + p.length + 1)
                (B + (p.length + 1 + j2), L, C) hmem
            simp only [] at hLlb
            have hj2len : j2 < (joinNL (q :: qs)).length := by
              rw [joinNL_len_cons] at hj
              omega
            have hsp2 : (joinNL (q :: qs)).getD j2 ' ' = ' ' := by
              rw [← joinNL_getD_right p q qs j2 ' ']
              exact hsp
            have hC2 : C = (((buildParas cpl (q :: qs)
                (L0 + (wrapParaF cpl p).length) (B + p.length + 1)).1.getD
                (L - (L0 + (wrapParaF cpl p).length)) []).length) := by
              rw [hC, show L - L0 = (wrapParaF cpl p).length +
                (L - (L0 + (wrapParaF cpl p).length)) from by omega,
                getD_append_right_gen]
            have hlook2 : lookupLast (buildParas cpl (q :: qs)
                (L0 + (wrapParaF cpl p).length) (B + p.length + 1)).2
                (B + p.length + 1 + j2) = some (L, C) := by
              rw [show B + p.length + 1 + j2 = B + (p.length + 1 + j2)
                from by omega]
              exact hlook
            have := ih hct (L0 + (wrapParaF cpl p).length)
              (B + p.length + 1) j2 L C hj2len hsp2 hlook2 hC2
            have hlocn2 : lookupLast (paraWalk p B (wrapParaF cpl p) L0 0 ++
                (if (q :: qs : List (List Char)) ≠ [] then [(B + p.length,
                  L0 + (wrapParaF cpl p).length - 1,
                  ((wrapParaF cpl p).getLastD []).length)] else []))
                (B + (p.length + 1 + j2) + 1) = none := by
              apply lookupLast_none
              intro e he
              rcases List.mem_append.mp he with hpw | hnl
              · have hub := paraWalk_keys_ub p B (wrapParaF cpl p) L0 0
                  hsched hlnn e hpw
                omega
              · rw [if_pos (List.cons_ne_nil q qs)] at hnl
                simp only [List.mem_singleton] at hnl
                subst hnl
                simp only []
                omega
            rw [lookupLast_right _ _ _ hlocn2]
            rw [show B + (p.length + 1 + j2) + 1 = B + p.length + 1 + j2 + 1
              from by omega]
            exact this

/-- Claim C3 (amended): for clean text, a space consumed at a wrap
point is mapped by the forward mapping to `(line,
column-at-end-of-that-line)`; pressing End on that line (the inverse
mapping at `column = line length`) yields exactly that offset — the
insertion point just before the consumed space — while the offset
immediately after the consumed space maps to column 0 of the next
visual line. -/
theorem consumed_space_tiebreak (cpl : Nat) (text : List Char) (o L : Nat)
    (hw : 1 ≤ cpl) (hc : cleanTextC2 text = true) (ho : o < text.length)
    (hsp : text.getD o ' ' = ' ')
    (hfwd : forwardPos cpl text o =
      (L, ((wrapLines cpl text).getD L []).length)) :
    pos_from_line_col cpl text L ((wrapLines cpl text).getD L []).length = o ∧
    forwardPos cpl text (o + 1) = (L + 1, 0) := by
  have hcp := splitNL_clean_of_cleanTextC2 hc
  have hlen : (joinNL (splitNL text)).length = text.length := by
    rw [joinNL_splitNL]
  have hoe : ¬ text.length ≤ o := by omega
  obtain ⟨L2, C2, hlook, hL2, hpos⟩ :=
    buildParas_lookup_inv cpl hw (splitNL text) hcp 0 0 o (by omega)
  rw [Nat.zero_add] at hlook hpos
  have hfwd2 : forwardPos cpl text o = (L2, C2) :=
    forwardPos_found cpl text o (L2, C2) hoe hlook
  rw [hfwd] at hfwd2
  have hLL : L = L2 ∧ ((wrapLines cpl text).getD L []).length = C2 := by
    have h1 := congrArg Prod.fst hfwd2
    have h2 := congrArg Prod.snd hfwd2
    exact ⟨h1, h2⟩
  obtain ⟨hLeq, hCeq⟩ := hLL
  subst hLeq
  constructor
  · rw [hCeq]
    unfold pos_from_line_col
    rw [hpos]
    rfl
  · have hsp2 : (joinNL (splitNL text)).getD o ' ' = ' ' := by
      rw [joinNL_splitNL]
      exact hsp
    have hC2form : C2 = (((buildParas cpl (splitNL text) 0 0).1.getD
        (L - 0) []).length) := by
      rw [← hCeq, wrapLines_eq]
      rfl
    have hlook0 : lookupLast (buildParas cpl (splitNL text) 0 0).2
        (0 + o) = some (L, C2) := by
      rw [Nat.zero_add]
      exact hlook
    have hsucc := buildParas_lookup_succ cpl hw (splitNL text) hcp 0 0 o L C2
      (by omega) hsp2 hlook0 hC2form
    rw [Nat.zero_add] at hsucc
    have hmem := lookupLast_mem _ _ _ hsucc
    have hub := buildParas_keys_ub cpl hw (splitNL text) hcp 0 0
      (o + 1, L + 1, 0) hmem
    simp only [Nat.zero_add] at hub
    have ho1 : ¬ text.length ≤ o + 1 := by omega
    exact forwardPos_found cpl text (o + 1) (L + 1, 0) ho1 hsucc

/-- Claim C3 witness: in `"ab cd"` at `wrap_width = 2` the space at
offset 2 is consumed by the wrap; End on line 0 returns offset 2 and
offset 3 maps to the start of line 1. -/
theorem consumed_space_tiebreak_witness :
    pos_from_line_col 2 "ab cd".toList 0
      ((wrapLines 2 "ab cd".toList).getD 0 []).length = 2 ∧
    forwardPos 2 "ab cd".toList 3 = (1, 0) :=
  consumed_space_tiebreak 2 "ab cd".toList 2 0 (by decide) (by decide)
    (by decide) (by decide) (by decide)

/-- Claim C3 counterexample: the character offset immediately AFTER a
consumed wrap-point space maps to column 0 of the next visual line, not
to the end of the previous line as the claim states: in `"ab cd"` at
`wrap_width = 2` the space at offset 2 is consumed, and offset 3 maps
to `(1, 0)`, not `(0, 2)`. -/
theorem offset_after_consumed_space_maps_to_next_line :
    forwardPos 2 "ab cd".toList 3 = (1, 0) ∧
      forwardPos 2 "ab cd".toList 3 ≠ (0, 2) := by
  constructor <;> decide

/-- Claim C8 witness: a concrete no-Ctrl iteration (typing `a` with the
default state) whose only display push is the partial frame. -/
theorem loop_display_pushes_part_only_witness :
    (mkState ['a'] 1).ctrlHeld = false ∧
    (∀ ev ∈ [((30 : Nat), (1 : Nat))],
      ev.1 ≠ KEY_LEFTCTRL ∧ ev.1 ≠ KEY_RIGHTCTRL) ∧
    (∀ c ∈ (main_loop_iter fsEmpty (mkState ['a'] 1) [(30, 1)] 0).2,
      c.isDisplayPush = true → c = Cmd.pushPart) :=
  ⟨rfl, by decide,
    loop_display_pushes_part_only fsEmpty (mkState ['a'] 1) [(30, 1)] 0
      rfl (by decide)⟩

end Etyper
